import Mathlib

/-!
# Verification of the Expander-rs GKR prover core

This file gives a shallow embedding, in Lean 4, of the core algorithms of the
Expander-rs prover: the per-layer sumcheck helper (`src/prover/sumcheck_helper.rs`),
the circuit evaluator and witness loader (`src/circuit/expander_circuit.rs`),
the recursive-circuit flattener and binary segment reader
(`src/circuit/ecc_circuit.rs`), and the AVX2 packed Mersenne-31 field
(`arith/src/field/m31/m31_avx.rs`), together with theorems settling the
specification claims about them.

Conventions of the embedding:
* Mutable buffers (`Vec<F>`, `&mut [F]`) become total functions `ℕ → F`
  (resp. `ℕ → Bool` for the `gate_exists` masks); an in-place write becomes a
  functional update.  All functions here are pure, so "the callee does not
  modify buffer X" is expressed by X simply not appearing in the result.
* The GKR configuration couples several field types
  (`CircuitField`, `SimdCircuitField`, `ChallengeField`, `Field`) through the
  operations `scale`, `challenge_mul_circuit`, `circuit_field_to_simd_circuit_field`,
  all of which act as ring multiplications lane-wise; the embedding of the
  sumcheck algebra instantiates them all at a single commutative ring `F`,
  so `scale` and `challenge_mul_circuit` are plain multiplications.
* Machine integers (`u32`/`u64` lanes of `__m256i`) are embedded as `ℕ`
  with explicit reduction `% 2^32` / `% 2^64` where the hardware wraps.
* Fallible operations (Rust panics, `unwrap`, `Result`) are embedded in
  `Option`, with `none` for every abnormal termination.
-/

/-! ## Sumcheck helper (src/prover/sumcheck_helper.rs) -/

/-- One pass of the inner loop of `eq_evals_at_primitive` for a single
challenge entry `ri`: positions `j < cur` are scaled by `1 - ri`, positions
`cur ≤ j < 2*cur` receive `e (j - cur) * ri`, and all later positions keep the
previous (garbage) contents of the buffer.  This captures the in-place loop
`for j in 0..cur_eval_num { eq_evals[j+cur] = eq_evals[j] * r_i; eq_evals[j] *= (1-r_i) }`. -/
def eqPrimitiveStep {F : Type} [CommRing F] (ri : F) (cur : ℕ) (e : ℕ → F) : ℕ → F :=
  fun j => if j < cur then e j * (1 - ri)
    else if j < 2 * cur then e (j - cur) * ri
    else e j

/-- The outer loop of `eq_evals_at_primitive`, processing the challenge entries
in order while the live table size doubles. -/
def eqPrimitiveGo {F : Type} [CommRing F] : List F → ℕ → (ℕ → F) → (ℕ → F)
  | [], _, e => e
  | ri :: rest, cur, e => eqPrimitiveGo rest (2 * cur) (eqPrimitiveStep ri cur e)

/-- `eq_evals_at_primitive(r, mul_factor, eq_evals)`: writes `mul_factor` at
index 0 of the buffer and then expands one challenge entry at a time.
`eqInit` is the arbitrary prior contents of the `eq_evals` buffer. -/
def eq_evals_at_primitive {F : Type} [CommRing F] (r : List F) (mulFactor : F)
    (eqInit : ℕ → F) : ℕ → F :=
  eqPrimitiveGo r 1 (Function.update eqInit 0 mulFactor)

/-- `eq_eval_at(r, mul_factor, eq_evals, sqrt_n_1st, sqrt_n_2nd)`: the
split-halves expansion.  The first `⌊n/2⌋` challenge entries are expanded into
the first-half table, the rest into the second-half table, and entry `i` of
the result is `sqrt_n_1st[i & mask] * sqrt_n_2nd[i >> first_half_bits]`
(`i & ((1 << h) - 1) = i % 2^h` and `i >> h = i / 2^h`).  Entries
`i ≥ 2^r.length` of the output buffer keep their prior contents. -/
def eq_eval_at {F : Type} [CommRing F] (r : List F) (mulFactor : F)
    (eqInit sqrt1Init sqrt2Init : ℕ → F) : ℕ → F :=
  let firstHalfBits := r.length / 2
  let s1 := eq_evals_at_primitive (r.take firstHalfBits) mulFactor sqrt1Init
  let s2 := eq_evals_at_primitive (r.drop firstHalfBits) 1 sqrt2Init
  fun i => if i < 2 ^ r.length then s1 (i % 2 ^ firstHalfBits) * s2 (i / 2 ^ firstHalfBits)
    else eqInit i

/-- The unique multilinear "equality polynomial" value: `eqTable r i` is the
product over all bit positions `b` of `r_b` when bit `b` of `i` is set and
`1 - r_b` otherwise.  This is the specification-side value that the two
expansion routines are proved to compute. -/
def eqTable {F : Type} [CommRing F] (r : List F) (i : ℕ) : F :=
  ∏ b ∈ Finset.range r.length, (if i.testBit b then r.getD b 0 else 1 - r.getD b 0)

/-- `SumcheckMultilinearProdHelper::poly_eval_at` (degree 2).  The loop over
`i ∈ 0..2^(var_num - var_idx - 1)` accumulates the three running sums,
skipping any index pair with no live gate, and the third entry is replaced by
`p2 = p1*6 + p0*3 - p2*2` at the end.  `bk_f` is read from `init_v` on round 0
and from itself afterwards; no buffer is written. -/
def poly_eval_at {F : Type} [CommRing F] (varNum varIdx : ℕ)
    (bkF bkHG initV : ℕ → F) (gateExists : ℕ → Bool) : F × F × F :=
  let srcV := if varIdx = 0 then initV else bkF
  let evalSize := 2 ^ (varNum - varIdx - 1)
  let s := (List.range evalSize).foldl
    (fun (acc : F × F × F) i =>
      if gateExists (2 * i) = false ∧ gateExists (2 * i + 1) = false then acc
      else
        (acc.1 + srcV (2 * i) * bkHG (2 * i),
         acc.2.1 + srcV (2 * i + 1) * bkHG (2 * i + 1),
         acc.2.2 + (srcV (2 * i) + srcV (2 * i + 1)) * (bkHG (2 * i) + bkHG (2 * i + 1))))
    (0, 0, 0)
  (s.1, s.2.1, s.2.1 * 6 + s.1 * 3 - s.2.2 * 2)

/-- `SumcheckMultilinearProdHelper::receive_challenge`: folds `bk_f` (from
`init_v` on round 0), `bk_hg`, and `gate_exists` from `cur_eval_size` entries
down to `cur_eval_size >> 1` entries.  A dead index pair folds `bk_hg` to `0`;
a live one folds it by `x[2i] + (x[2i+1] - x[2i]) * r`.  Positions at or above
`cur_eval_size >> 1` are not written.  Returns `(bk_f, bk_hg, gate_exists)`
after the fold. -/
def receive_challenge {F : Type} [CommRing F] (varIdx curEvalSize : ℕ) (r : F)
    (bkF bkHG initV : ℕ → F) (gateExists : ℕ → Bool) :
    (ℕ → F) × (ℕ → F) × (ℕ → Bool) :=
  let half := curEvalSize / 2
  let src := if varIdx = 0 then initV else bkF
  (fun i => if i < half then src (2 * i) + (src (2 * i + 1) - src (2 * i)) * r else bkF i,
   fun i => if i < half then
      (if gateExists (2 * i) = false ∧ gateExists (2 * i + 1) = false then 0
       else bkHG (2 * i) + (bkHG (2 * i + 1) - bkHG (2 * i)) * r)
    else bkHG i,
   fun i => if i < half then (gateExists (2 * i) || gateExists (2 * i + 1)) else gateExists i)

/-! ## Gates and circuit layers (src/circuit/gate.rs, expander_circuit.rs)

Gates are parametric in the coefficient type `V` (the Rust
`C::SimdCircuitField`); the sumcheck and evaluation claims instantiate `V` at
a commutative ring, the witness-loading claims at a packed vector of
Mersenne-31 lanes. -/

/-- `CoefType`: tag attached to each gate coefficient. -/
inductive CoefTy where
  | constant : CoefTy
  | random : CoefTy
  | publicInput (idx : ℕ) : CoefTy
  deriving DecidableEq, Repr

/-- `Gate<C, 2>`: a mul gate with two input wire ids. -/
structure GateMul (V : Type) where
  i0 : ℕ
  i1 : ℕ
  o : ℕ
  coef : V
  coefType : CoefTy
  gateType : ℕ
  deriving DecidableEq, Repr

/-- `Gate<C, 1>`: an add gate (also the carrier for uni gates). -/
structure GateAdd (V : Type) where
  i0 : ℕ
  o : ℕ
  coef : V
  coefType : CoefTy
  gateType : ℕ
  deriving DecidableEq, Repr

/-- `Gate<C, 0>`: a const gate. -/
structure GateCst (V : Type) where
  o : ℕ
  coef : V
  coefType : CoefTy
  gateType : ℕ
  deriving DecidableEq, Repr

/-- `GateUni = Gate<C, 1>` with the `gate_type` dispatcher (12345 = x⁵,
12346 = x¹). -/
structure GateUni (V : Type) where
  i0 : ℕ
  o : ℕ
  coef : V
  coefType : CoefTy
  gateType : ℕ
  deriving DecidableEq, Repr

/-- `SumcheckGkrHelper::prepare_g_x_vals`, equality-table part: after the two
`eq_eval_at` calls the loop `for i in 0..1 << rz0.len()` adds the `rz1` table
into the `rz0` table in place. -/
def prepare_g_x_eq {F : Type} [CommRing F] (rz0 rz1 : List F) (alpha beta : F)
    (rz0Init rz1Init half1Init half2Init : ℕ → F) : ℕ → F :=
  let t0 := eq_eval_at rz0 alpha rz0Init half1Init half2Init
  let t1 := eq_eval_at rz1 beta rz1Init half1Init half2Init
  fun i => if i < 2 ^ rz0.length then t0 i + t1 i else t0 i

/-- `SumcheckGkrHelper::prepare_g_x_vals`, scratch-buffer part: zero `hg_vals`
and `gate_exists` over the `2^input_var_num` live entries, then for every mul
gate add `vals[i_ids[1]] * (eq_evals_at_rz0[o_id] * coef)` into
`hg_vals[i_ids[0]]`, and for every add gate add `eq_evals_at_rz0[o_id] * coef`;
both kinds mark `gate_exists[i_ids[0]]`.  Returns `(hg_vals, gate_exists)`. -/
def prepare_g_x_vals {F : Type} [CommRing F] (inputVarNum : ℕ)
    (muls : List (GateMul F)) (adds : List (GateAdd F))
    (vals : ℕ → F) (eqRz0 : ℕ → F) (hgInit : ℕ → F) (geInit : ℕ → Bool) :
    (ℕ → F) × (ℕ → Bool) :=
  let hg0 : ℕ → F := fun i => if i < 2 ^ inputVarNum then 0 else hgInit i
  let ge0 : ℕ → Bool := fun i => if i < 2 ^ inputVarNum then false else geInit i
  let afterMul := muls.foldl
    (fun (st : (ℕ → F) × (ℕ → Bool)) g =>
      (Function.update st.1 g.i0 (st.1 g.i0 + vals g.i1 * (eqRz0 g.o * g.coef)),
       Function.update st.2 g.i0 true))
    (hg0, ge0)
  adds.foldl
    (fun (st : (ℕ → F) × (ℕ → Bool)) g =>
      (Function.update st.1 g.i0 (st.1 g.i0 + eqRz0 g.o * g.coef),
       Function.update st.2 g.i0 true))
    afterMul

/-- `SumcheckGkrHelper::prepare_h_y_vals`: zero `hg_vals` and `gate_exists`
over `2^rx.len()` entries, then for every mul gate add
`v_rx * (eq_evals_at_rz0[o_id] * eq_evals_at_rx[i_ids[0]] * coef)` into
`hg_vals[i_ids[1]]` and mark `gate_exists[i_ids[1]]`. -/
def prepare_h_y_vals {F : Type} [CommRing F] (rxLen : ℕ)
    (muls : List (GateMul F)) (vRx : F)
    (eqRz0 eqRx : ℕ → F) (hgInit : ℕ → F) (geInit : ℕ → Bool) :
    (ℕ → F) × (ℕ → Bool) :=
  let hg0 : ℕ → F := fun i => if i < 2 ^ rxLen then 0 else hgInit i
  let ge0 : ℕ → Bool := fun i => if i < 2 ^ rxLen then false else geInit i
  muls.foldl
    (fun (st : (ℕ → F) × (ℕ → Bool)) g =>
      (Function.update st.1 g.i1 (st.1 g.i1 + vRx * (eqRz0 g.o * eqRx g.i0 * g.coef)),
       Function.update st.2 g.i1 true))
    (hg0, ge0)

/-! ## Circuit layers and evaluation (src/circuit/expander_circuit.rs) -/

/-- `CircuitLayer`: flat per-layer data with globally offset wire indices. -/
structure CircuitLayer (V : Type) where
  inputVarNum : ℕ
  outputVarNum : ℕ
  inputVals : List V
  outputVals : List V
  mul : List (GateMul V)
  add : List (GateAdd V)
  const : List (GateCst V)
  uni : List (GateUni V)
  deriving DecidableEq, Repr

/-- `Circuit`: ordered layers from input to output.  The raw-pointer indices
`rnd_coefs` / `pub_coefs` of the Rust struct are embedded structurally: the
coefficient fills below locate special coefficients by scanning the gate
lists, which is the documented equivalent locator semantics. -/
structure Circuit (V : Type) where
  layers : List (CircuitLayer V)
  deriving DecidableEq, Repr

/-- `CircuitLayer::evaluate`: `res` is cleared, resized to `2^output_var_num`
zeros, then every gate accumulates into `res[gate.o_id]`.  Reads
`input_vals[id]` with `getD _ 0` and writes with `List.set`; a run of the Rust
code that does not panic has all indices in bounds, where these coincide with
the Rust indexing.  A uni gate whose `gate_type` is neither 12345 nor 12346 is
fatal (`none`). -/
def CircuitLayer.evaluate {F : Type} [CommRing F] (l : CircuitLayer F) : Option (List F) :=
  let res0 : List F := List.replicate (2 ^ l.outputVarNum) 0
  let res1 := l.mul.foldl
    (fun res g =>
      res.set g.o (res.getD g.o 0 + l.inputVals.getD g.i0 0 * l.inputVals.getD g.i1 0 * g.coef))
    res0
  let res2 := l.add.foldl
    (fun res g => res.set g.o (res.getD g.o 0 + l.inputVals.getD g.i0 0 * g.coef)) res1
  let res3 := l.const.foldl (fun res g => res.set g.o (res.getD g.o 0 + g.coef)) res2
  l.uni.foldlM
    (fun res g =>
      if g.gateType = 12345 then
        let i0 := l.inputVals.getD g.i0 0
        let i02 := i0 * i0
        let i04 := i02 * i02
        some (res.set g.o (res.getD g.o 0 + i04 * i0 * g.coef))
      else if g.gateType = 12346 then
        some (res.set g.o (res.getD g.o 0 + l.inputVals.getD g.i0 0 * g.coef))
      else none)
    res3

/-- The layer-chaining loop of `Circuit::evaluate`: each non-terminal layer's
result becomes the next layer's `input_vals`; the terminal layer's result is
written into its own `output_vals`. -/
def circuitEvaluateGo {F : Type} [CommRing F] :
    CircuitLayer F → List (CircuitLayer F) → Option (List (CircuitLayer F))
  | cur, [] => do
    let out ← cur.evaluate
    some [{ cur with outputVals := out }]
  | cur, next :: rest => do
    let v ← cur.evaluate
    let tail ← circuitEvaluateGo { next with inputVals := v } rest
    some (cur :: tail)

/-- `Circuit::evaluate` (an empty circuit panics on `layers.last().unwrap()`,
hence `none`). -/
def Circuit.evaluate {F : Type} [CommRing F] (c : Circuit F) : Option (Circuit F) :=
  match c.layers with
  | [] => none
  | l0 :: rest => do
    let layers ← circuitEvaluateGo l0 rest
    some ⟨layers⟩

/-! ## Byte-stream decoding (arith FieldSerde, as consumed by the loaders)

A byte stream is a `List ℕ` of byte values.  Every Rust read that can fail
(`read_exact` + `unwrap`/`?`, assertion failures, `unreachable!`) is `none`. -/

/-- Read exactly `n` bytes from the stream. -/
def readBytes : ℕ → List ℕ → Option (List ℕ × List ℕ)
  | 0, bs => some ([], bs)
  | _ + 1, [] => none
  | n + 1, b :: bs => (readBytes n bs).map (fun vr => (b :: vr.1, vr.2))

/-- Little-endian value of a byte list. -/
def leVal (l : List ℕ) : ℕ := l.foldr (fun b acc => b + 256 * acc) 0

/-- `u64::deserialize_from`: consume 8 little-endian bytes. -/
def readU64 (bs : List ℕ) : Option (ℕ × List ℕ) :=
  (readBytes 8 bs).map (fun vr => (leVal vr.1, vr.2))

/-- The Mersenne-31 modulus `p = 2^31 - 1`. -/
def m31P : ℕ := 2 ^ 31 - 1

/-- Modelled from the spec: the scalar `M31` type lives in `arith`'s
`m31.rs`, which is not part of the sources here.  Per §4.1 of the spec its
canonical form is the unique representative in `[0, p)`, so conversion from a
32-bit unsigned value reduces modulo `p`. -/
def m31FromU32 (v : ℕ) : ℕ := v % m31P

/-- `M31::try_deserialize_from_ecc_format` (per spec §6 the M31 ECC wire
format is 4 little-endian value bytes followed by 28 bytes that are asserted
to be zero): 32 bytes are consumed, the trailing 28 must be zero, and the
value is the `u32` of the first 4 bytes converted into `M31`. -/
def m31ReadEcc (bs : List ℕ) : Option (ℕ × List ℕ) :=
  (readBytes 32 bs).bind (fun vr =>
    if (vr.1.drop 4).all (· = 0) then some (m31FromU32 (leVal (vr.1.take 4)), vr.2)
    else none)

/-- The packed SIMD circuit-field type of the Mersenne-31 configuration:
8 lanes, each holding the `u32` payload of one scalar `M31`. -/
abbrev M31Vec := Fin 8 → ℕ

/-- `AVXM31::pack_full` / `circuit_field_to_simd_circuit_field`: broadcast a
scalar into every lane. -/
def packFull (v : ℕ) : M31Vec := fun _ => v

/-- `SimdField::from_scalar_array` for the 8-lane packing (the callers below
always pass exactly `SIMD_SIZE` scalars). -/
def simdPack (scalars : List ℕ) : M31Vec := fun lane => scalars.getD lane 0

/-! ## Witness loading (src/circuit/expander_circuit.rs) -/

/-- `Circuit::vec_2d_to_vec_simd`: `vec2d` is `simd_size × n`; entry `i` of
the result packs lane `j` from `vec2d[j][i]`. -/
def vec2dToVecSimd (vec2d : List (List ℕ)) : List M31Vec :=
  (List.range (vec2d.getD 0 []).length).map
    (fun i => simdPack ((List.range 8).map (fun j => (vec2d.getD j []).getD i 0)))

/-- Read `n` consecutive ECC-format field elements. -/
def readRow : ℕ → List ℕ → Option (List ℕ × List ℕ)
  | 0, bs => some ([], bs)
  | n + 1, bs =>
    (m31ReadEcc bs).bind (fun vr => (readRow n vr.2).map (fun wr => (vr.1 :: wr.1, wr.2)))

/-- The witness-reading loop: for each of the first `m` witnesses, its
`nin` private inputs followed by its `npub` public inputs. -/
def readWitnessRows : ℕ → ℕ → ℕ → List ℕ → Option (List (List ℕ × List ℕ) × List ℕ)
  | 0, _, _, bs => some ([], bs)
  | m + 1, nin, npub, bs => do
    let pr ← readRow nin bs
    let pu ← readRow npub pr.2
    let rest ← readWitnessRows m nin npub pu.2
    some ((pr.1, pu.1) :: rest.1, rest.2)

/-- Helper of `Circuit::fill_pub_coefs` for a single coefficient slot: a
`PublicInput(idx)` coefficient is overwritten with `public_inputs[idx]`
(indexing out of range panics), all other slots are untouched. -/
def fillPubCoef {V : Type} (pubs : List V) (ct : CoefTy) (coef : V) : Option V :=
  match ct with
  | CoefTy.publicInput idx => if h : idx < pubs.length then some (pubs.get ⟨idx, h⟩) else none
  | _ => some coef

/-- `Circuit::fill_pub_coefs`: every coefficient whose type is
`PublicInput(idx)` — located through the index built by
`identify_special_coefs`, which records each such slot of every gate list of
every layer — is overwritten with `public_inputs[idx]`. -/
def fill_pub_coefs {V : Type} (c : Circuit V) (pubs : List V) : Option (Circuit V) := do
  let layers ← c.layers.mapM (fun l => do
    let muls ← l.mul.mapM (fun g =>
      (fillPubCoef pubs g.coefType g.coef).map (fun cf => { g with coef := cf }))
    let adds ← l.add.mapM (fun g =>
      (fillPubCoef pubs g.coefType g.coef).map (fun cf => { g with coef := cf }))
    let csts ← l.const.mapM (fun g =>
      (fillPubCoef pubs g.coefType g.coef).map (fun cf => { g with coef := cf }))
    let unis ← l.uni.mapM (fun g =>
      (fillPubCoef pubs g.coefType g.coef).map (fun cf => { g with coef := cf }))
    some { l with mul := muls, add := adds, const := csts, uni := unis })
  some ⟨layers⟩

/-- `Circuit::load_witness_bytes` over the Mersenne-31 configuration
(`SIMD_SIZE = 8`).  Reads the header (`num_witnesses`, inputs and public
inputs per witness, the 4-limb field modulus), then exactly
`min(num_witnesses, SIMD_SIZE)` witnesses; remaining SIMD lanes stay zero.
Public inputs are packed and written over every `PublicInput` coefficient,
and the packed private inputs become `layers[0].input_vals`.  Returns the
updated circuit together with the unconsumed remainder of the stream (the
Rust function drops its cursor; the remainder makes the amount consumed
observable). -/
def load_witness_bytes (c : Circuit M31Vec) (bytes : List ℕ) :
    Option (Circuit M31Vec × List ℕ) := do
  let h1 ← readU64 bytes
  let h2 ← readU64 h1.2
  let h3 ← readU64 h2.2
  let hmod ← readBytes 32 h3.2
  let nw := h1.1
  let nin := h2.1
  let npub := h3.1
  let rows ← readWitnessRows (min nw 8) nin npub hmod.2
  let privates : List (List ℕ) := (List.range 8).map
    (fun i => ((rows.1.getD i (List.replicate nin 0, List.replicate npub 0)).1))
  let publics : List (List ℕ) := (List.range 8).map
    (fun i => ((rows.1.getD i (List.replicate nin 0, List.replicate npub 0)).2))
  let c1 ← fill_pub_coefs c (vec2dToVecSimd publics)
  match c1.layers with
  | [] => none
  | l0 :: rest => some (⟨{ l0 with inputVals := vec2dToVecSimd privates } :: rest⟩, rows.2)

/-! ## Recursive circuit: segments, reading, flattening (src/circuit/ecc_circuit.rs) -/

/-- An instantiation offset pair. -/
structure Allocation where
  iOffset : ℕ
  oOffset : ℕ
  deriving DecidableEq, Repr

/-- A reusable sub-circuit. -/
structure Segment (V : Type) where
  iVarNum : ℕ
  oVarNum : ℕ
  childSegs : List (ℕ × List Allocation)
  gateMuls : List (GateMul V)
  gateAdds : List (GateAdd V)
  gateCsts : List (GateCst V)
  gateUnis : List (GateUni V)
  deriving Repr

/-- The all-empty segment (used as the out-of-range default of list lookups;
a Rust index out of range would panic, and an acyclic well-formed circuit
never produces one). -/
def emptySeg {V : Type} : Segment V :=
  ⟨0, 0, [], [], [], [], []⟩

/-- `Segment::contain_gates`. -/
def Segment.containGates {V : Type} (s : Segment V) : Bool :=
  !s.gateMuls.isEmpty || !s.gateAdds.isEmpty || !s.gateCsts.isEmpty || !s.gateUnis.isEmpty

/-- `RecursiveCircuit`: segments plus the ordered layer roots. -/
structure RecursiveCircuit (V : Type) where
  segments : List (Segment V)
  layers : List ℕ
  deriving Repr

/-- `Segment::scan_leaf_segments`.  The Rust function returns a
`HashMap<SegmentId, Vec<Allocation>>`; the embedding returns it as the
function from segment id to allocation list.  The root inserts itself with
the zero allocation when it contains gates; then for each child entry, each
leaf of the child is extended, for every `(child allocation, leaf allocation)`
pair in that order, by the coordinate-wise sum of offsets.  Recursion is
fuelled; any fuel at least the length of the longest path in an acyclic DAG
gives the fixpoint. -/
def scan_leaf_segments {V : Type} (rc : RecursiveCircuit V) :
    ℕ → Segment V → ℕ → ℕ → List Allocation
  | 0, _, _ => fun _ => []
  | fuel + 1, seg, curId =>
    let base : ℕ → List Allocation := fun id =>
      if seg.containGates = true ∧ id = curId then [⟨0, 0⟩] else []
    seg.childSegs.foldl
      (fun acc child =>
        let leaves := scan_leaf_segments rc fuel (rc.segments.getD child.1 emptySeg) child.1
        fun id => acc id ++
          child.2.flatMap (fun ca => (leaves id).map
            (fun la => ⟨ca.iOffset + la.iOffset, ca.oOffset + la.oOffset⟩)))
      base

/-- Wire-shift of a mul gate by an allocation (`i_ids += i_offset`,
`o_id += o_offset`). -/
def shiftMul {V : Type} (a : Allocation) (g : GateMul V) : GateMul V :=
  { g with i0 := g.i0 + a.iOffset, i1 := g.i1 + a.iOffset, o := g.o + a.oOffset }

/-- Wire-shift of an add gate by an allocation. -/
def shiftAdd {V : Type} (a : Allocation) (g : GateAdd V) : GateAdd V :=
  { g with i0 := g.i0 + a.iOffset, o := g.o + a.oOffset }

/-- Wire-shift of a const gate by an allocation. -/
def shiftCst {V : Type} (a : Allocation) (g : GateCst V) : GateCst V :=
  { g with o := g.o + a.oOffset }

/-- Wire-shift of a uni gate by an allocation. -/
def shiftUni {V : Type} (a : Allocation) (g : GateUni V) : GateUni V :=
  { g with i0 := g.i0 + a.iOffset, o := g.o + a.oOffset }

/-- `RecursiveCircuit::flatten`.  For each top-level layer segment, the leaf
map is computed (with fuel `segments.length`, enough for every acyclic DAG)
and, for every (leaf, composed allocation) pair, clones of the leaf's gate
lists are appended with wires shifted by the composed offsets.  The Rust
`HashMap` iteration order is unspecified; the embedding iterates leaf ids in
increasing order, so the claims about the result are stated per leaf and at
the count/multiset level.  `flattenLayer` is the body of the per-layer
loop. -/
def flattenLayer {V : Type} (rc : RecursiveCircuit V) (layerId : ℕ) : CircuitLayer V :=
  let layerSeg := rc.segments.getD layerId emptySeg
  let leaves := scan_leaf_segments rc rc.segments.length layerSeg layerId
  { inputVarNum := layerSeg.iVarNum
    outputVarNum := layerSeg.oVarNum
    inputVals := []
    outputVals := []
    mul := (List.range rc.segments.length).flatMap (fun leafId =>
      (leaves leafId).flatMap (fun a =>
        (rc.segments.getD leafId emptySeg).gateMuls.map (shiftMul a)))
    add := (List.range rc.segments.length).flatMap (fun leafId =>
      (leaves leafId).flatMap (fun a =>
        (rc.segments.getD leafId emptySeg).gateAdds.map (shiftAdd a)))
    const := (List.range rc.segments.length).flatMap (fun leafId =>
      (leaves leafId).flatMap (fun a =>
        (rc.segments.getD leafId emptySeg).gateCsts.map (shiftCst a)))
    uni := (List.range rc.segments.length).flatMap (fun leafId =>
      (leaves leafId).flatMap (fun a =>
        (rc.segments.getD leafId emptySeg).gateUnis.map (shiftUni a))) }

/-- The flattened circuit: one converted layer per top-level layer root. -/
def RecursiveCircuit.flatten {V : Type} (rc : RecursiveCircuit V) : Circuit V :=
  ⟨rc.layers.map (flattenLayer rc)⟩

/-- A composed allocation along a DAG path: `PathComp rc cur leaf a` holds
when there is a path of child references from `cur` to a gate-containing
segment `leaf` whose allocation offsets sum coordinate-wise to `a`. -/
inductive PathComp {V : Type} (rc : RecursiveCircuit V) : ℕ → ℕ → Allocation → Prop where
  | leaf (id : ℕ) (h : (rc.segments.getD id emptySeg).containGates = true) :
      PathComp rc id id ⟨0, 0⟩
  | child (cur cid leafId : ℕ) (callocs : List Allocation) (ca la : Allocation)
      (hc : (cid, callocs) ∈ (rc.segments.getD cur emptySeg).childSegs)
      (hca : ca ∈ callocs) (hp : PathComp rc cid leafId la) :
      PathComp rc cur leafId ⟨ca.iOffset + la.iOffset, ca.oOffset + la.oOffset⟩

/-! ## Segment reading (src/circuit/ecc_circuit.rs, `Segment::read`) -/

/-- `CoefType::read`: one tag byte (`1` = Constant, `2` = Random,
`3` = PublicInput followed by a `u64` index; anything else is
`unreachable!`).  On a truncated stream the Rust code ignores the read error,
leaving the tag byte `0`, which also hits `unreachable!`. -/
def readCoefTy (bs : List ℕ) : Option (CoefTy × List ℕ) :=
  match bs with
  | [] => none
  | b :: r =>
    if b = 1 then some (CoefTy.constant, r)
    else if b = 2 then some (CoefTy.random, r)
    else if b = 3 then (readU64 r).map (fun ir => (CoefTy.publicInput ir.1, ir.2))
    else none

/-- Read a coefficient for a just-read `CoefType`: `Constant` is followed by
an ECC-format field element broadcast into the SIMD lanes, any other type
leaves the coefficient at SIMD zero. -/
def readCoefVal (ct : CoefTy) (bs : List ℕ) : Option (M31Vec × List ℕ) :=
  match ct with
  | CoefTy.constant => (m31ReadEcc bs).map (fun vr => (packFull vr.1, vr.2))
  | _ => some (packFull 0, bs)

/-- `Gate::<C, 2>::read`. -/
def readGateMul (bs : List ℕ) : Option (GateMul M31Vec × List ℕ) := do
  let a ← readU64 bs
  let b ← readU64 a.2
  let o ← readU64 b.2
  let ct ← readCoefTy o.2
  let cv ← readCoefVal ct.1 ct.2
  some (⟨a.1, b.1, o.1, cv.1, ct.1, 0⟩, cv.2)

/-- `Gate::<C, 1>::read`. -/
def readGateAdd (bs : List ℕ) : Option (GateAdd M31Vec × List ℕ) := do
  let a ← readU64 bs
  let o ← readU64 a.2
  let ct ← readCoefTy o.2
  let cv ← readCoefVal ct.1 ct.2
  some (⟨a.1, o.1, cv.1, ct.1, 0⟩, cv.2)

/-- `Gate::<C, 0>::read`. -/
def readGateCst (bs : List ℕ) : Option (GateCst M31Vec × List ℕ) := do
  let o ← readU64 bs
  let ct ← readCoefTy o.2
  let cv ← readCoefVal ct.1 ct.2
  some (⟨o.1, cv.1, ct.1, 0⟩, cv.2)

/-- Read `n` consecutive `u64` values (the custom gate's input-id list). -/
def readU64List : ℕ → List ℕ → Option (List ℕ × List ℕ)
  | 0, bs => some ([], bs)
  | n + 1, bs =>
    (readU64 bs).bind (fun vr => (readU64List n vr.2).map (fun wr => (vr.1 :: wr.1, wr.2)))

/-- One custom-gate record of `Segment::read`: `gate_type`, `in_count`,
`in_count` input ids, the output id, the coefficient type and (for constants)
the coefficient; the constructed `GateUni` takes `inputs[0]`, which panics
(`none`) when `in_count = 0`. -/
def readCustomGate (bs : List ℕ) : Option (GateUni M31Vec × List ℕ) := do
  let gt ← readU64 bs
  let inLen ← readU64 gt.2
  let inputs ← readU64List inLen.1 inLen.2
  let out ← readU64 inputs.2
  let ct ← readCoefTy out.2
  let cv ← readCoefVal ct.1 ct.2
  match inputs.1 with
  | [] => none
  | i0 :: _ => some (⟨i0, out.1, cv.1, ct.1, gt.1⟩, cv.2)

/-- Run a record reader `n` times, collecting the records in order. -/
def readCount {α : Type} (rd : List ℕ → Option (α × List ℕ)) :
    ℕ → List ℕ → Option (List α × List ℕ)
  | 0, bs => some ([], bs)
  | n + 1, bs =>
    (rd bs).bind (fun vr => (readCount rd n vr.2).map (fun wr => (vr.1 :: wr.1, wr.2)))

/-- The allocation loop for one child record: each allocation pushes a fresh
`(child_seg_id, vec![allocation])` entry. -/
def readChildAllocs (cid : ℕ) : ℕ → List ℕ → Option (List (ℕ × List Allocation) × List ℕ)
  | 0, bs => some ([], bs)
  | n + 1, bs => do
    let io ← readU64 bs
    let oo ← readU64 io.2
    let rest ← readChildAllocs cid n oo.2
    some ((cid, [⟨io.1, oo.1⟩]) :: rest.1, rest.2)

/-- The child-segment loop of `Segment::read`. -/
def readChildren : ℕ → List ℕ → Option (List (ℕ × List Allocation) × List ℕ)
  | 0, bs => some ([], bs)
  | n + 1, bs => do
    let cid ← readU64 bs
    let an ← readU64 cid.2
    let cs ← readChildAllocs cid.1 an.1 an.2
    let rest ← readChildren n cs.2
    some (cs.1 ++ rest.1, rest.2)

/-- `Segment::read`: sizes (asserted powers of two, storing their log₂),
children, then the four gate lists, the custom list last. -/
def Segment.read (bs : List ℕ) : Option (Segment M31Vec × List ℕ) := do
  let iLen ← readU64 bs
  let oLen ← readU64 iLen.2
  if iLen.1 = 2 ^ iLen.1.log2 ∧ iLen.1 ≠ 0 ∧ oLen.1 = 2 ^ oLen.1.log2 ∧ oLen.1 ≠ 0 then
    let csn ← readU64 oLen.2
    let children ← readChildren csn.1 csn.2
    let mn ← readU64 children.2
    let muls ← readCount readGateMul mn.1 mn.2
    let an ← readU64 muls.2
    let adds ← readCount readGateAdd an.1 an.2
    let cn ← readU64 adds.2
    let csts ← readCount readGateCst cn.1 cn.2
    let un ← readU64 csts.2
    let unis ← readCount readCustomGate un.1 un.2
    some (⟨iLen.1.log2, oLen.1.log2, children.1, muls.1, adds.1, csts.1, unis.1⟩, unis.2)
  else none

/-! ## AVX2 packed Mersenne-31 (arith/src/field/m31/m31_avx.rs)

A `__m256i` register is embedded as its eight 32-bit lanes, each a `ℕ` kept
below `2^32`; the 64-bit-lane intrinsics view lane pair `(2j, 2j+1)` as the
value `lane(2j) + 2^32 * lane(2j+1)`. -/

/-- View a register through its four 64-bit lanes. -/
def to64 (v : M31Vec) : Fin 4 → ℕ :=
  fun j => v ⟨2 * j.1, by omega⟩ + 2 ^ 32 * v ⟨2 * j.1 + 1, by omega⟩

/-- View four 64-bit lanes as eight 32-bit lanes. -/
def to32 (u : Fin 4 → ℕ) : M31Vec :=
  fun i =>
    if i.1 % 2 = 0 then u ⟨i.1 / 2, by omega⟩ % 2 ^ 32
    else u ⟨i.1 / 2, by omega⟩ / 2 ^ 32 % 2 ^ 32

/-- `PACKED_MOD`: the modulus `p` broadcast to all lanes. -/
def packedMod : M31Vec := fun _ => m31P

/-- `_mm256_add_epi32`: lanewise wrapping 32-bit addition. -/
def mmAdd32 (a b : M31Vec) : M31Vec := fun i => (a i + b i) % 2 ^ 32

/-- `_mm256_sub_epi32`: lanewise wrapping 32-bit subtraction
(two's complement: `a - b ≡ a + (2^32 - b) (mod 2^32)`). -/
def mmSub32 (a b : M31Vec) : M31Vec := fun i => (a i + (2 ^ 32 - b i % 2 ^ 32)) % 2 ^ 32

/-- `_mm256_min_epu32`: lanewise unsigned minimum. -/
def mmMin32 (a b : M31Vec) : M31Vec := fun i => min (a i) (b i)

/-- `_mm256_and_si256` with `PACKED_MOD` (the low-31-bit mask):
lanewise reduction modulo `2^31`. -/
def mmAndMod (a : M31Vec) : M31Vec := fun i => a i % 2 ^ 31

/-- `_mm256_srli_epi64::<k>`: shift each 64-bit lane right. -/
def mmSrl64 (k : ℕ) (a : M31Vec) : M31Vec := to32 (fun j => to64 a j / 2 ^ k)

/-- `_mm256_slli_epi64::<k>`: shift each 64-bit lane left (wrapping). -/
def mmSll64 (k : ℕ) (a : M31Vec) : M31Vec := to32 (fun j => to64 a j * 2 ^ k % 2 ^ 64)

/-- `_mm256_mul_epu32`: multiply the low 32 bits of each 64-bit lane into a
full 64-bit product. -/
def mmMulEpu32 (a b : M31Vec) : M31Vec :=
  to32 (fun j => to64 a j % 2 ^ 32 * (to64 b j % 2 ^ 32))

/-- `movehdup_epi32`: duplicate the odd 32-bit lanes into the even ones. -/
def mmMovehdup (a : M31Vec) : M31Vec := fun i => a ⟨i.1 / 2 * 2 + 1, by omega⟩

/-- `_mm256_blend_epi32::<0b10101010>`: odd lanes from the second operand,
even lanes from the first. -/
def mmBlendOdd (a b : M31Vec) : M31Vec := fun i => if i.1 % 2 = 1 then b i else a i

/-- `_mm256_cmpeq_epi32`: all-ones lane where equal, zero elsewhere. -/
def mmCmpEq32 (a b : M31Vec) : M31Vec := fun i => if a i = b i then 2 ^ 32 - 1 else 0

/-- `_mm256_andnot_si256`: lanewise `(NOT a) AND b`. -/
def mmAndnot (a b : M31Vec) : M31Vec := fun i => (2 ^ 32 - 1 - a i % 2 ^ 32) &&& b i

/-- `impl Add<&AVXM31> for AVXM31`: lanewise add, then lanewise unsigned
`min(result, result - p)`. -/
def avxAdd (x y : M31Vec) : M31Vec :=
  let result := mmAdd32 x y
  let subx := mmSub32 result packedMod
  mmMin32 result subx

/-- `impl Sub<&AVXM31> for AVXM31`: lanewise subtract, then unsigned
`min(t, t + p)`. -/
def avxSub (x y : M31Vec) : M31Vec :=
  let t := mmSub32 x y
  let subx := mmAdd32 t packedMod
  mmMin32 t subx

/-- `impl Neg for AVXM31`: `p - x` lanewise, masked to zero on lanes where
`x` is zero. -/
def avxNeg (x : M31Vec) : M31Vec :=
  let subx := mmSub32 packedMod x
  let zeroCmp := mmCmpEq32 x (packFull 0)
  mmAndnot zeroCmp subx

/-- `impl Mul<&AVXM31> for AVXM31`: the interleaved even/odd Plonky3
multiplication — 64-bit products of the even and doubled odd lanes, split
into low-31 and high bits, blended back and reduced once. -/
def avxMul (x y : M31Vec) : M31Vec :=
  let lhsEvn := x
  let lhsOddDbl := mmSrl64 31 x
  let rhsEvn := y
  let rhsOdd := mmMovehdup y
  let prodOddDbl := mmMulEpu32 lhsOddDbl rhsOdd
  let prodEvn := mmMulEpu32 lhsEvn rhsEvn
  let prodOddLoDirty := mmSll64 31 prodOddDbl
  let prodEvnHi := mmSrl64 31 prodEvn
  let prodLoDirty := mmBlendOdd prodEvn prodOddLoDirty
  let prodHi := mmBlendOdd prodEvnHi prodOddDbl
  let prodLo := mmAndMod prodLoDirty
  let t := mmAdd32 prodHi prodLo
  let u := mmSub32 t packedMod
  mmMin32 t u

/-- Modelled from the spec: `M31::is_zero` (scalar `m31.rs` is not among the
sources).  Per spec §4.1 the canonical form is the representative in
`[0, p)`, so a value is zero exactly when it reduces to `0` modulo `p`. -/
def m31IsZero (v : ℕ) : Bool := v % m31P == 0

/-- Modelled from the spec: scalar `M31::inv` (from the missing `m31.rs`).
Spec §4.1: "Inversion via Fermat's little theorem (exponent p−2) or
extended-Euclid; both are acceptable", returning `None` iff the input is zero
or a non-unit (§4.1 contract).  The extended-Euclid form is embedded through
the `ZMod p` inverse. -/
def m31Inv (v : ℕ) : Option ℕ :=
  if v % m31P = 0 then none else some ((v : ZMod m31P)⁻¹.val)

/-- `AVXM31::inv`: unpack to eight scalar `M31`s, return `None` unless every
lane is nonzero, otherwise invert each lane (the per-lane `unwrap` cannot
fail there) and repack. -/
def avxInv (x : M31Vec) : Option M31Vec :=
  if ∀ i, m31IsZero (x i) = false then some (fun i => (m31Inv (x i)).getD 0) else none

/-- `Field::one()` for `AVXM31`: all lanes `1`. -/
def avxOne : M31Vec := packFull 1

/-- `Field::zero()` for `AVXM31`: all lanes `0`. -/
def avxZero : M31Vec := packFull 0

/-- The Mersenne number `2^31 - 1` is prime (Lucas–Lehmer, used for the
correctness of the spec-modelled scalar inversion). -/
instance : Fact (Nat.Prime m31P) :=
  ⟨by
    have h : LucasLehmer.LucasLehmerTest 31 := by norm_num
    have h2 := lucas_lehmer_sufficiency 31 (by norm_num) h
    simpa [mersenne, m31P] using h2⟩

instance : NeZero m31P := ⟨by rw [show m31P = 2147483647 from rfl]; omega⟩

/-- The property that each of `n` successive custom-gate records of a byte
stream parses and carries a positive `in_count` (used to state claim C10
about `Segment::read`). -/
def customRecordsOK : ℕ → List ℕ → Prop
  | 0, _ => True
  | n + 1, bs => ∃ g bs' gtv r1 m r2,
      readCustomGate bs = some (g, bs') ∧
      readU64 bs = some (gtv, r1) ∧ readU64 r1 = some (m, r2) ∧ 1 ≤ m ∧
      customRecordsOK n bs'

/-- The all-empty circuit layer (out-of-range default for layer lookups). -/
def emptyLayer {V : Type} : CircuitLayer V :=
  ⟨0, 0, [], [], [], [], [], []⟩

/-- Default row used by the loader when a SIMD lane has no witness: `nin`
zero private inputs and `npub` zero public inputs. -/
def witnessRowD (nin npub : ℕ) : List ℕ × List ℕ :=
  (List.replicate nin 0, List.replicate npub 0)

/-- The `j`-th private input of witness `i` among the decoded rows (zero when
lane `i` has no witness, matching the loader's zero-initialised buffers). -/
def witPriv (nin npub : ℕ) (rows : List (List ℕ × List ℕ)) (i j : ℕ) : ℕ :=
  ((rows.getD i (witnessRowD nin npub)).1).getD j 0

/-- The `j`-th public input of witness `i` among the decoded rows. -/
def witPub (nin npub : ℕ) (rows : List (List ℕ × List ℕ)) (i j : ℕ) : ℕ :=
  ((rows.getD i (witnessRowD nin npub)).2).getD j 0

/-- Concrete one-layer circuit for exercising the witness loader. -/
def cW : Circuit M31Vec := ⟨[emptyLayer]⟩

/-- A witness byte stream: one witness, one private input (value 5), no
public inputs, all-zero modulus limbs. -/
def bytesW : List ℕ :=
  [1, 0, 0, 0, 0, 0, 0, 0, 1, 0, 0, 0, 0, 0, 0, 0] ++ List.replicate 40 0 ++
    [5, 0, 0, 0] ++ List.replicate 28 0

/-- The circuit `cW` after loading `bytesW`: lane 0 of the single input slot
holds 5, the other lanes zero. -/
def cW2 : Circuit M31Vec :=
  ⟨[{ emptyLayer with inputVals := [simdPack [5, 0, 0, 0, 0, 0, 0, 0]] }]⟩

/-- Concrete recursive circuit: segment 0 is a leaf with one add gate,
segment 1 instantiates it twice (offsets (2,3) and (0,0)) and is the only
top-level layer. -/
def rcW : RecursiveCircuit ℕ :=
  ⟨[⟨1, 1, [], [], [⟨0, 0, 7, CoefTy.constant, 0⟩], [], []⟩,
    ⟨2, 2, [(0, [⟨2, 3⟩, ⟨0, 0⟩])], [], [], [], []⟩], [1]⟩

/-- A rank function witnessing that `rcW` is acyclic. -/
def rankW : ℕ → ℕ := fun id => if id = 1 then 1 else 0

/-! ## Theorems

First a stock of helper lemmas shared between the claims, then one theorem
(and, where required, one witness or counterexample) per claim. -/

/-- A `foldl` over `List.range m` that either skips an index or adds one term
into each of three accumulator components equals the triple of filtered sums. -/
theorem foldl_skip_triple {F : Type} [CommRing F] (cond : ℕ → Prop) [DecidablePred cond]
    (a b c : ℕ → F) (m : ℕ) (x y z : F) :
    (List.range m).foldl
      (fun (acc : F × F × F) i =>
        if cond i then acc else (acc.1 + a i, acc.2.1 + b i, acc.2.2 + c i))
      (x, y, z) =
    (x + ∑ i ∈ (Finset.range m).filter (fun i => ¬ cond i), a i,
     y + ∑ i ∈ (Finset.range m).filter (fun i => ¬ cond i), b i,
     z + ∑ i ∈ (Finset.range m).filter (fun i => ¬ cond i), c i) := by
  induction m with
  | zero => simp
  | succ m ih =>
    rw [List.range_succ, List.foldl_append, ih]
    by_cases h : cond m
    · simp only [List.foldl_cons, List.foldl_nil, if_pos h]
      rw [Finset.range_succ, Finset.filter_insert, if_neg (by simpa using h)]
    · simp only [List.foldl_cons, List.foldl_nil, if_neg h]
      rw [Finset.range_succ, Finset.filter_insert, if_pos (by simpa using h)]
      rw [Finset.sum_insert (by simp), Finset.sum_insert (by simp), Finset.sum_insert (by simp)]
      refine Prod.ext ?_ (Prod.ext ?_ ?_) <;> simp <;> ring

/-- The filter used by `poly_eval_at`, rewritten from "not both dead" to
"at least one live". -/
theorem filter_not_both_dead {m : ℕ} (ge : ℕ → Bool) :
    (Finset.range m).filter
        (fun i => ¬ (ge (2 * i) = false ∧ ge (2 * i + 1) = false)) =
      (Finset.range m).filter
        (fun i => ge (2 * i) = true ∨ ge (2 * i + 1) = true) := by
  apply Finset.filter_congr
  intro i _
  cases h1 : ge (2 * i) <;> cases h2 : ge (2 * i + 1) <;> simp

/-- Helper: the accumulation loop of `poly_eval_at` as a triple of filtered
sums over the live index pairs. -/
theorem poly_eval_at_sums {F : Type} [CommRing F] (n k : ℕ)
    (bkF bkHG initV : ℕ → F) (ge : ℕ → Bool) :
    poly_eval_at n k bkF bkHG initV ge =
      (∑ i ∈ (Finset.range (2 ^ (n - k - 1))).filter
          (fun i => ge (2 * i) = true ∨ ge (2 * i + 1) = true),
          (if k = 0 then initV else bkF) (2 * i) * bkHG (2 * i),
       ∑ i ∈ (Finset.range (2 ^ (n - k - 1))).filter
          (fun i => ge (2 * i) = true ∨ ge (2 * i + 1) = true),
          (if k = 0 then initV else bkF) (2 * i + 1) * bkHG (2 * i + 1),
       6 * (∑ i ∈ (Finset.range (2 ^ (n - k - 1))).filter
          (fun i => ge (2 * i) = true ∨ ge (2 * i + 1) = true),
          (if k = 0 then initV else bkF) (2 * i + 1) * bkHG (2 * i + 1)) +
       3 * (∑ i ∈ (Finset.range (2 ^ (n - k - 1))).filter
          (fun i => ge (2 * i) = true ∨ ge (2 * i + 1) = true),
          (if k = 0 then initV else bkF) (2 * i) * bkHG (2 * i)) -
       2 * (∑ i ∈ (Finset.range (2 ^ (n - k - 1))).filter
          (fun i => ge (2 * i) = true ∨ ge (2 * i + 1) = true),
          ((if k = 0 then initV else bkF) (2 * i) + (if k = 0 then initV else bkF) (2 * i + 1)) *
            (bkHG (2 * i) + bkHG (2 * i + 1)))) := by
  simp only [poly_eval_at]
  rw [foldl_skip_triple (fun i => ge (2 * i) = false ∧ ge (2 * i + 1) = false)]
  simp only [filter_not_both_dead, zero_add]
  refine Prod.ext rfl (Prod.ext rfl ?_)
  simp only
  ring

/-- Invariant preservation along a `List.foldl`. -/
theorem foldl_preserves {α β : Type} (P : α → Prop) (f : α → β → α) (l : List β)
    (init : α) (h0 : P init) (hstep : ∀ st b, P st → P (f st b)) :
    P (l.foldl f init) := by
  induction l generalizing init with
  | nil => exact h0
  | cons b t ih => exact ih (f init b) (hstep init b h0)

/-- A gate-marking fold step — write any value into `hg` at a position and
simultaneously mark `gate_exists` there — preserves the dead-implies-zero
invariant on any index range. -/
theorem mark_step_preserves {F : Type} [CommRing F] (bound : ℕ)
    (st : (ℕ → F) × (ℕ → Bool)) (pos : ℕ) (v : F)
    (h : ∀ i < bound, st.2 i = false → st.1 i = 0) :
    ∀ i < bound, (Function.update st.2 pos true) i = false →
      (Function.update st.1 pos v) i = 0 := by
  intro i hi hgef
  by_cases hp : i = pos
  · subst hp; simp [Function.update_same] at hgef
  · rw [Function.update_noteq hp] at hgef ⊢
    exact h i hi hgef

/-- C9: the sumcheck scratchpad invariant.  (1) `prepare_g_x_vals`
establishes dead-implies-zero over the `2^input_var_num` live entries;
(2) `prepare_h_y_vals` establishes it over the `2^rx.len()` live entries;
(3) `receive_challenge` re-establishes it over the halved live range
unconditionally, because a dead folded pair writes `bk_hg[i] = 0`. -/
theorem scratchpad_dead_implies_zero {F : Type} [CommRing F]
    (inputVarNum rxLen varIdx curEvalSize : ℕ)
    (muls : List (GateMul F)) (adds : List (GateAdd F))
    (vals eqRz0 eqRx : ℕ → F) (hgInit : ℕ → F) (geInit : ℕ → Bool)
    (vRx r : F) (bkF bkHG initV : ℕ → F) (ge : ℕ → Bool) :
    (∀ i < 2 ^ inputVarNum,
      (prepare_g_x_vals inputVarNum muls adds vals eqRz0 hgInit geInit).2 i = false →
      (prepare_g_x_vals inputVarNum muls adds vals eqRz0 hgInit geInit).1 i = 0) ∧
    (∀ i < 2 ^ rxLen,
      (prepare_h_y_vals rxLen muls vRx eqRz0 eqRx hgInit geInit).2 i = false →
      (prepare_h_y_vals rxLen muls vRx eqRz0 eqRx hgInit geInit).1 i = 0) ∧
    (∀ i < curEvalSize / 2,
      (receive_challenge varIdx curEvalSize r bkF bkHG initV ge).2.2 i = false →
      (receive_challenge varIdx curEvalSize r bkF bkHG initV ge).2.1 i = 0) := by
  refine ⟨?_, ?_, ?_⟩
  · have h := foldl_preserves
      (fun (st : (ℕ → F) × (ℕ → Bool)) => ∀ i < 2 ^ inputVarNum, st.2 i = false → st.1 i = 0)
      (fun st g =>
        (Function.update st.1 g.i0 (st.1 g.i0 + eqRz0 g.o * g.coef),
         Function.update st.2 g.i0 true))
      adds
    intro i hi
    refine h _ ?_ (fun st g hst => mark_step_preserves _ st g.i0 _ hst) i hi
    have hmul := foldl_preserves
      (fun (st : (ℕ → F) × (ℕ → Bool)) => ∀ i < 2 ^ inputVarNum, st.2 i = false → st.1 i = 0)
      (fun st g =>
        (Function.update st.1 g.i0 (st.1 g.i0 + vals g.i1 * (eqRz0 g.o * g.coef)),
         Function.update st.2 g.i0 true))
      muls
      ((fun i => if i < 2 ^ inputVarNum then 0 else hgInit i),
       (fun i => if i < 2 ^ inputVarNum then false else geInit i))
      (by intro i hi _; simp [hi])
      (fun st g hst => mark_step_preserves _ st g.i0 _ hst)
    exact hmul
  · have h := foldl_preserves
      (fun (st : (ℕ → F) × (ℕ → Bool)) => ∀ i < 2 ^ rxLen, st.2 i = false → st.1 i = 0)
      (fun st g =>
        (Function.update st.1 g.i1 (st.1 g.i1 + vRx * (eqRz0 g.o * eqRx g.i0 * g.coef)),
         Function.update st.2 g.i1 true))
      muls
      ((fun i => if i < 2 ^ rxLen then 0 else hgInit i),
       (fun i => if i < 2 ^ rxLen then false else geInit i))
      (by intro i hi _; simp [hi])
      (fun st g hst => mark_step_preserves _ st g.i1 _ hst)
    exact h
  · intro i hi hdead
    simp only [receive_challenge] at hdead ⊢
    rw [if_pos hi] at hdead ⊢
    rw [Bool.or_eq_false_iff] at hdead
    rw [if_pos hdead]

/-- Witness for C9: a concrete one-variable layer with a single mul gate on
wire 0 leaves wire 1 dead, and its `hg` entry is zero. -/
theorem scratchpad_dead_implies_zero_witness :
    (prepare_g_x_vals 1 [⟨0, 0, 0, (2 : ℤ), CoefTy.constant, 0⟩] []
        (fun _ => 1) (fun _ => 1) (fun _ => 7) (fun _ => true)).1 1 = 0 :=
  (scratchpad_dead_implies_zero 1 0 0 0 [⟨0, 0, 0, (2 : ℤ), CoefTy.constant, 0⟩] []
      (fun _ => 1) (fun _ => 1) (fun _ => 1) (fun _ => 7) (fun _ => true)
      0 0 (fun _ => 0) (fun _ => 0) (fun _ => 0) (fun _ => true)).1
    1 (by decide) (by decide)

/-- C2: `poly_eval_at` with degree 2 returns
`[S00, S11, 6*S11 + 3*S00 - 2*S01]`, where the three sums range over exactly
the indices `i < 2^(n-k-1)` for which `gate_exists[2i]` or `gate_exists[2i+1]`
holds, and the `f` values are read from `init_v` on round 0 and from `bk_f`
afterwards.  (No input buffer is modified: the embedding of the function is
pure and returns only the triple.) -/
theorem poly_eval_at_closed_form {F : Type} [CommRing F] (n k : ℕ)
    (bkF bkHG initV : ℕ → F) (ge : ℕ → Bool) :
    poly_eval_at n k bkF bkHG initV ge =
      (let fv := if k = 0 then initV else bkF
       let live := (Finset.range (2 ^ (n - k - 1))).filter
         (fun i => ge (2 * i) = true ∨ ge (2 * i + 1) = true)
       let s00 := ∑ i ∈ live, fv (2 * i) * bkHG (2 * i)
       let s11 := ∑ i ∈ live, fv (2 * i + 1) * bkHG (2 * i + 1)
       let s01 := ∑ i ∈ live,
         (fv (2 * i) + fv (2 * i + 1)) * (bkHG (2 * i) + bkHG (2 * i + 1))
       (s00, s11, 6 * s11 + 3 * s00 - 2 * s01)) :=
  poly_eval_at_sums n k bkF bkHG initV ge

/-- Helper: a sum over `range (2*m)` split into consecutive index pairs. -/
theorem sum_range_two_mul {F : Type} [CommRing F] (g : ℕ → F) (m : ℕ) :
    ∑ j ∈ Finset.range (2 * m), g j = ∑ i ∈ Finset.range m, (g (2 * i) + g (2 * i + 1)) := by
  induction m with
  | zero => simp
  | succ m ih =>
    have h : 2 * (m + 1) = 2 * m + 1 + 1 := by ring
    rw [h, Finset.sum_range_succ, Finset.sum_range_succ, ih, Finset.sum_range_succ]
    ring

/-- Helper: a filtered sum equals the unfiltered one when every excluded
term vanishes. -/
theorem sum_filter_all {F : Type} [CommRing F] (p : ℕ → Prop) [DecidablePred p]
    (f : ℕ → F) (m : ℕ) (h : ∀ i ∈ Finset.range m, ¬ p i → f i = 0) :
    ∑ i ∈ (Finset.range m).filter p, f i = ∑ i ∈ Finset.range m, f i := by
  rw [Finset.sum_filter]
  refine Finset.sum_congr rfl (fun i hi => ?_)
  by_cases hp : p i
  · rw [if_pos hp]
  · rw [if_neg hp, h i hi hp]


/-- C1: consecutive sumcheck rounds are consistent.  If round `k` emits
`[p0, p1, p2]` and `receive_challenge` is called with challenge `r`, then for
every polynomial `L(x) = a + b x + c x²` of degree at most 2 through
`L(0) = p0`, `L(1) = p1`, `L(2) = p2` (unique since `2 ≠ 0` in `F`), the
triple `[q0, q1, q2]` emitted at round `k+1` satisfies `q0 + q1 = L(r)`,
provided the dead-implies-zero scratchpad precondition holds at the start of
round `k`.  The helper state at round `k` has `cur_eval_size = 2^(n-k)`. -/
theorem sumcheck_round_consistency {F : Type} [CommRing F] [NoZeroDivisors F]
    (n k : ℕ) (r a b c : F)
    (bkF bkHG initV : ℕ → F) (ge : ℕ → Bool)
    (hk : k + 1 < n) (h2 : (2 : F) ≠ 0)
    (hinv : ∀ i < 2 ^ (n - k), ge i = false → bkHG i = 0)
    (ha : (poly_eval_at n k bkF bkHG initV ge).1 = a)
    (hb : (poly_eval_at n k bkF bkHG initV ge).2.1 = a + b + c)
    (hc : (poly_eval_at n k bkF bkHG initV ge).2.2 = a + 2 * b + 4 * c) :
    (poly_eval_at n (k + 1)
        (receive_challenge k (2 ^ (n - k)) r bkF bkHG initV ge).1
        (receive_challenge k (2 ^ (n - k)) r bkF bkHG initV ge).2.1 initV
        (receive_challenge k (2 ^ (n - k)) r bkF bkHG initV ge).2.2).1 +
      (poly_eval_at n (k + 1)
        (receive_challenge k (2 ^ (n - k)) r bkF bkHG initV ge).1
        (receive_challenge k (2 ^ (n - k)) r bkF bkHG initV ge).2.1 initV
        (receive_challenge k (2 ^ (n - k)) r bkF bkHG initV ge).2.2).2.1 =
      a + b * r + c * r ^ 2 := by
  have hpow1 : 2 ^ (n - k - 1) = 2 * 2 ^ (n - k - 2) :=
    (by congr 1; omega : 2 ^ (n - k - 1) = 2 ^ (n - k - 2 + 1)).trans
      (by rw [pow_succ]; ring)
  have hpow0 : 2 ^ (n - k) = 4 * 2 ^ (n - k - 2) :=
    (by congr 1; omega : 2 ^ (n - k) = 2 ^ (n - k - 2 + 2)).trans
      (by rw [pow_add]; ring)
  have hhalf : 2 ^ (n - k) / 2 = 2 * 2 ^ (n - k - 2) := by omega
  have hrange1 : n - (k + 1) - 1 = n - k - 2 := by omega
  -- the folded buffers, pointwise
  have hf : ∀ j, j < 2 * 2 ^ (n - k - 2) →
      (receive_challenge k (2 ^ (n - k)) r bkF bkHG initV ge).1 j =
        (if k = 0 then initV else bkF) (2 * j) +
          ((if k = 0 then initV else bkF) (2 * j + 1) -
            (if k = 0 then initV else bkF) (2 * j)) * r := by
    intro j hj
    simp only [receive_challenge]
    rw [hhalf, if_pos hj]
  have hh : ∀ j, j < 2 * 2 ^ (n - k - 2) →
      (receive_challenge k (2 ^ (n - k)) r bkF bkHG initV ge).2.1 j =
        bkHG (2 * j) + (bkHG (2 * j + 1) - bkHG (2 * j)) * r := by
    intro j hj
    simp only [receive_challenge]
    rw [hhalf, if_pos hj]
    by_cases hd : ge (2 * j) = false ∧ ge (2 * j + 1) = false
    · rw [if_pos hd, hinv (2 * j) (by omega) hd.1, hinv (2 * j + 1) (by omega) hd.2]
      ring
    · rw [if_neg hd]
  have hgz : ∀ j, j < 2 * 2 ^ (n - k - 2) →
      (receive_challenge k (2 ^ (n - k)) r bkF bkHG initV ge).2.2 j = false →
      (receive_challenge k (2 ^ (n - k)) r bkF bkHG initV ge).2.1 j = 0 := by
    intro j hj hgef
    simp only [receive_challenge] at hgef ⊢
    rw [hhalf, if_pos hj] at hgef ⊢
    rw [Bool.or_eq_false_iff] at hgef
    rw [if_pos hgef]
  -- round k+1 emission as an unfiltered paired sum
  have hQ : (poly_eval_at n (k + 1)
        (receive_challenge k (2 ^ (n - k)) r bkF bkHG initV ge).1
        (receive_challenge k (2 ^ (n - k)) r bkF bkHG initV ge).2.1 initV
        (receive_challenge k (2 ^ (n - k)) r bkF bkHG initV ge).2.2).1 +
      (poly_eval_at n (k + 1)
        (receive_challenge k (2 ^ (n - k)) r bkF bkHG initV ge).1
        (receive_challenge k (2 ^ (n - k)) r bkF bkHG initV ge).2.1 initV
        (receive_challenge k (2 ^ (n - k)) r bkF bkHG initV ge).2.2).2.1 =
      ∑ j ∈ Finset.range (2 * 2 ^ (n - k - 2)),
        (receive_challenge k (2 ^ (n - k)) r bkF bkHG initV ge).1 j *
        (receive_challenge k (2 ^ (n - k)) r bkF bkHG initV ge).2.1 j := by
    rw [poly_eval_at_sums]
    simp only [Nat.succ_ne_zero, if_false, hrange1]
    rw [← Finset.sum_add_distrib]
    rw [sum_filter_all _ _ (2 ^ (n - k - 2)) ?_]
    · rw [sum_range_two_mul (fun j =>
        (receive_challenge k (2 ^ (n - k)) r bkF bkHG initV ge).1 j *
        (receive_challenge k (2 ^ (n - k)) r bkF bkHG initV ge).2.1 j) (2 ^ (n - k - 2))]
    · intro i hi hnp
      push_neg at hnp
      rw [Finset.mem_range] at hi
      have hz0 := hgz (2 * i) (by omega) (Bool.not_eq_true _ |>.mp hnp.1)
      have hz1 := hgz (2 * i + 1) (by omega) (Bool.not_eq_true _ |>.mp hnp.2)
      rw [hz0, hz1]
      ring
  rw [hQ]
  have hdead : ∀ i, i ∈ Finset.range (2 ^ (n - k - 1)) →
      ¬ (ge (2 * i) = true ∨ ge (2 * i + 1) = true) →
      bkHG (2 * i) = 0 ∧ bkHG (2 * i + 1) = 0 := by
    intro i hi hnp
    push_neg at hnp
    rw [Finset.mem_range, hpow1] at hi
    exact ⟨hinv (2 * i) (by omega) (Bool.not_eq_true _ |>.mp hnp.1),
           hinv (2 * i + 1) (by omega) (Bool.not_eq_true _ |>.mp hnp.2)⟩
  have hP := poly_eval_at_sums n k bkF bkHG initV ge
  have e1 : ∑ i ∈ Finset.range (2 ^ (n - k - 1)),
      (if k = 0 then initV else bkF) (2 * i) * bkHG (2 * i) = a := by
    rw [← ha, hP]
    exact (sum_filter_all _ _ _
      (fun i hi hnp => by rw [(hdead i hi hnp).1, mul_zero])).symm
  have e2 : ∑ i ∈ Finset.range (2 ^ (n - k - 1)),
      (if k = 0 then initV else bkF) (2 * i + 1) * bkHG (2 * i + 1) = a + b + c := by
    rw [← hb, hP]
    exact (sum_filter_all _ _ _
      (fun i hi hnp => by rw [(hdead i hi hnp).2, mul_zero])).symm
  have e3 : 6 * (∑ i ∈ Finset.range (2 ^ (n - k - 1)),
        (if k = 0 then initV else bkF) (2 * i + 1) * bkHG (2 * i + 1)) +
      3 * (∑ i ∈ Finset.range (2 ^ (n - k - 1)),
        (if k = 0 then initV else bkF) (2 * i) * bkHG (2 * i)) -
      2 * (∑ i ∈ Finset.range (2 ^ (n - k - 1)),
        ((if k = 0 then initV else bkF) (2 * i) +
          (if k = 0 then initV else bkF) (2 * i + 1)) *
          (bkHG (2 * i) + bkHG (2 * i + 1))) = a + 2 * b + 4 * c := by
    rw [← hc, hP]
    rw [sum_filter_all _ _ _ (fun i hi hnp => by rw [(hdead i hi hnp).1, mul_zero]),
        sum_filter_all _ _ _ (fun i hi hnp => by rw [(hdead i hi hnp).2, mul_zero]),
        sum_filter_all _ _ _ (fun i hi hnp => by
          rw [(hdead i hi hnp).1, (hdead i hi hnp).2, add_zero, mul_zero])]
  -- expand the folded sum into the 1, r, r² coefficients
  have hsum : ∑ j ∈ Finset.range (2 * 2 ^ (n - k - 2)),
      (receive_challenge k (2 ^ (n - k)) r bkF bkHG initV ge).1 j *
      (receive_challenge k (2 ^ (n - k)) r bkF bkHG initV ge).2.1 j =
      (∑ i ∈ Finset.range (2 ^ (n - k - 1)),
        (if k = 0 then initV else bkF) (2 * i) * bkHG (2 * i)) +
      (∑ i ∈ Finset.range (2 ^ (n - k - 1)),
        ((if k = 0 then initV else bkF) (2 * i) * (bkHG (2 * i + 1) - bkHG (2 * i)) +
          ((if k = 0 then initV else bkF) (2 * i + 1) -
            (if k = 0 then initV else bkF) (2 * i)) * bkHG (2 * i))) * r +
      (∑ i ∈ Finset.range (2 ^ (n - k - 1)),
        ((if k = 0 then initV else bkF) (2 * i + 1) -
          (if k = 0 then initV else bkF) (2 * i)) *
          (bkHG (2 * i + 1) - bkHG (2 * i))) * r ^ 2 := by
    rw [← hpow1, Finset.sum_mul, Finset.sum_mul,
        ← Finset.sum_add_distrib, ← Finset.sum_add_distrib]
    refine Finset.sum_congr rfl (fun j hj => ?_)
    rw [Finset.mem_range, hpow1] at hj
    rw [hf j hj, hh j hj]
    ring
  rw [hsum]
  -- the two nontrivial coefficient identities, at the level of merged sums
  have hSB : ∑ i ∈ Finset.range (2 ^ (n - k - 1)),
      ((if k = 0 then initV else bkF) (2 * i) * (bkHG (2 * i + 1) - bkHG (2 * i)) +
        ((if k = 0 then initV else bkF) (2 * i + 1) -
          (if k = 0 then initV else bkF) (2 * i)) * bkHG (2 * i)) =
      (∑ i ∈ Finset.range (2 ^ (n - k - 1)),
        ((if k = 0 then initV else bkF) (2 * i) +
          (if k = 0 then initV else bkF) (2 * i + 1)) *
          (bkHG (2 * i) + bkHG (2 * i + 1))) -
      (∑ i ∈ Finset.range (2 ^ (n - k - 1)),
        (if k = 0 then initV else bkF) (2 * i + 1) * bkHG (2 * i + 1)) -
      3 * (∑ i ∈ Finset.range (2 ^ (n - k - 1)),
        (if k = 0 then initV else bkF) (2 * i) * bkHG (2 * i)) := by
    rw [Finset.mul_sum, ← Finset.sum_sub_distrib, ← Finset.sum_sub_distrib]
    exact Finset.sum_congr rfl (fun i _ => by ring)
  have hSC : ∑ i ∈ Finset.range (2 ^ (n - k - 1)),
      ((if k = 0 then initV else bkF) (2 * i + 1) -
        (if k = 0 then initV else bkF) (2 * i)) *
        (bkHG (2 * i + 1) - bkHG (2 * i)) =
      2 * (∑ i ∈ Finset.range (2 ^ (n - k - 1)),
        (if k = 0 then initV else bkF) (2 * i + 1) * bkHG (2 * i + 1)) +
      2 * (∑ i ∈ Finset.range (2 ^ (n - k - 1)),
        (if k = 0 then initV else bkF) (2 * i) * bkHG (2 * i)) -
      (∑ i ∈ Finset.range (2 ^ (n - k - 1)),
        ((if k = 0 then initV else bkF) (2 * i) +
          (if k = 0 then initV else bkF) (2 * i + 1)) *
          (bkHG (2 * i) + bkHG (2 * i + 1))) := by
    rw [Finset.mul_sum, Finset.mul_sum, ← Finset.sum_add_distrib, ← Finset.sum_sub_distrib]
    exact Finset.sum_congr rfl (fun i _ => by ring)
  rw [e1, hSB, hSC, e1, e2]
  -- solve for b and c using 2 ≠ 0
  have hXval : 2 * (∑ i ∈ Finset.range (2 ^ (n - k - 1)),
      ((if k = 0 then initV else bkF) (2 * i) +
        (if k = 0 then initV else bkF) (2 * i + 1)) *
        (bkHG (2 * i) + bkHG (2 * i + 1))) =
      2 * (4 * a + 2 * b + c) := by
    linear_combination 6 * e2 + 3 * e1 - e3
  have hX : ∑ i ∈ Finset.range (2 ^ (n - k - 1)),
      ((if k = 0 then initV else bkF) (2 * i) +
        (if k = 0 then initV else bkF) (2 * i + 1)) *
        (bkHG (2 * i) + bkHG (2 * i + 1)) = 4 * a + 2 * b + c :=
    mul_left_cancel₀ h2 hXval
  rw [hX]
  ring

/-- Witness for C1: a concrete two-variable instance over `ℤ` with
`init_v = (1,2,3,4)`, `bk_hg = (1,1,1,1)`, all gates live, challenge `r = 3`,
and interpolant `L(x) = 4 + 2x`. -/
theorem sumcheck_round_consistency_witness :
    (poly_eval_at 2 (0 + 1)
        (receive_challenge 0 (2 ^ (2 - 0)) (3 : ℤ) (fun _ => 0) (fun _ => 1)
          (fun j => if j = 0 then 1 else if j = 1 then 2 else if j = 2 then 3 else 4)
          (fun _ => true)).1
        (receive_challenge 0 (2 ^ (2 - 0)) (3 : ℤ) (fun _ => 0) (fun _ => 1)
          (fun j => if j = 0 then 1 else if j = 1 then 2 else if j = 2 then 3 else 4)
          (fun _ => true)).2.1
        (fun j => if j = 0 then 1 else if j = 1 then 2 else if j = 2 then 3 else 4)
        (receive_challenge 0 (2 ^ (2 - 0)) (3 : ℤ) (fun _ => 0) (fun _ => 1)
          (fun j => if j = 0 then 1 else if j = 1 then 2 else if j = 2 then 3 else 4)
          (fun _ => true)).2.2).1 +
      (poly_eval_at 2 (0 + 1)
        (receive_challenge 0 (2 ^ (2 - 0)) (3 : ℤ) (fun _ => 0) (fun _ => 1)
          (fun j => if j = 0 then 1 else if j = 1 then 2 else if j = 2 then 3 else 4)
          (fun _ => true)).1
        (receive_challenge 0 (2 ^ (2 - 0)) (3 : ℤ) (fun _ => 0) (fun _ => 1)
          (fun j => if j = 0 then 1 else if j = 1 then 2 else if j = 2 then 3 else 4)
          (fun _ => true)).2.1
        (fun j => if j = 0 then 1 else if j = 1 then 2 else if j = 2 then 3 else 4)
        (receive_challenge 0 (2 ^ (2 - 0)) (3 : ℤ) (fun _ => 0) (fun _ => 1)
          (fun j => if j = 0 then 1 else if j = 1 then 2 else if j = 2 then 3 else 4)
          (fun _ => true)).2.2).2.1 =
      4 + 2 * 3 + 0 * 3 ^ 2 :=
  sumcheck_round_consistency 2 0 3 4 2 0 (fun _ => 0) (fun _ => 1)
    (fun j => if j = 0 then 1 else if j = 1 then 2 else if j = 2 then 3 else 4)
    (fun _ => true)
    (by decide) (by decide)
    (fun i _ h => Bool.noConfusion h)
    (by decide) (by decide) (by decide)

/-- Helper: `getD` commutes with `take` below the cut. -/
theorem getD_take {F : Type} (l : List F) (n i : ℕ) (d : F) (h : i < n) :
    (l.take n).getD i d = l.getD i d := by
  simp [List.getD_eq_getElem?_getD, List.getElem?_take, h]

/-- Helper: `getD` commutes with `drop` up to an index shift. -/
theorem getD_drop {F : Type} (l : List F) (n i : ℕ) (d : F) :
    (l.drop n).getD i d = l.getD (n + i) d := by
  simp [List.getD_eq_getElem?_getD, List.getElem?_drop]

/-- Helper: the doubling loop of `eq_evals_at_primitive`.  Starting from a
table whose first `cur` entries are arbitrary, after processing the
challenge list `l` entry `j < cur * 2^l.length` holds the original entry at
`j % cur` times the equality-polynomial factors of the bits of `j / cur`. -/
theorem eqPrimitiveGo_spec {F : Type} [CommRing F] (l : List F) :
    ∀ (cur : ℕ) (e : ℕ → F), 0 < cur → ∀ j < cur * 2 ^ l.length,
      eqPrimitiveGo l cur e j =
        e (j % cur) * ∏ b ∈ Finset.range l.length,
          (if (j / cur).testBit b then l.getD b 0 else 1 - l.getD b 0) := by
  induction l with
  | nil =>
    intro cur e _ j hj
    simp only [List.length_nil, pow_zero, mul_one] at hj
    simp only [eqPrimitiveGo, List.length_nil, Finset.range_zero, Finset.prod_empty, mul_one]
    rw [Nat.mod_eq_of_lt hj]
  | cons ri rest ih =>
    intro cur e hcur j hj
    have h2c : 0 < 2 * cur := by omega
    have hlen : cur * 2 ^ (ri :: rest).length = 2 * cur * 2 ^ rest.length := by
      simp only [List.length_cons, pow_succ]; ring
    rw [hlen] at hj
    have hstep : eqPrimitiveGo (ri :: rest) cur e j =
        eqPrimitiveGo rest (2 * cur) (eqPrimitiveStep ri cur e) j := rfl
    rw [hstep, ih (2 * cur) _ h2c j hj]
    have hmod : j % (2 * cur) % cur = j % cur :=
      Nat.mod_mod_of_dvd j ⟨2, by ring⟩
    have hdiv2 : j % (2 * cur) / cur = j / cur % 2 := by
      rw [mul_comm 2 cur, Nat.mod_mul_right_div_self]
    have hdd : j / (2 * cur) = j / cur / 2 := by
      rw [Nat.div_div_eq_div_mul, mul_comm]
    have hstep2 : ∀ b ∈ Finset.range rest.length,
        (if (j / (2 * cur)).testBit b then rest.getD b 0 else 1 - rest.getD b 0) =
        (if (j / cur).testBit (b + 1) then (ri :: rest).getD (b + 1) 0
         else 1 - (ri :: rest).getD (b + 1) 0) := by
      intro b _
      rw [hdd, ← Nat.testBit_add_one]
      rfl
    rw [Finset.prod_congr rfl hstep2, List.length_cons, Finset.prod_range_succ']
    have hmlt : j % (2 * cur) < 2 * cur := Nat.mod_lt _ h2c
    simp only [eqPrimitiveStep, List.getD_cons_zero]
    by_cases hlt : j % (2 * cur) < cur
    · have hj2 : j % (2 * cur) = j % cur := by
        rw [← hmod, Nat.mod_eq_of_lt hlt]
      have hd0 : j % (2 * cur) / cur = 0 := Nat.div_eq_of_lt hlt
      have hbit : (j / cur).testBit 0 = false := by
        rw [Nat.testBit_zero]
        simp [hdiv2.symm.trans hd0]
      rw [if_pos hlt, hj2, hbit, if_neg (by simp)]
      ring
    · have hge : cur ≤ j % (2 * cur) := not_lt.mp hlt
      have hj2 : j % (2 * cur) - cur = j % cur := by
        have h2 : j % (2 * cur) % cur = (j % (2 * cur) - cur) % cur :=
          Nat.mod_eq_sub_mod hge
        have h3 : (j % (2 * cur) - cur) % cur = j % (2 * cur) - cur :=
          Nat.mod_eq_of_lt (by omega)
        exact h3.symm.trans (h2.symm.trans hmod)
      have hd1 : j % (2 * cur) / cur = 1 :=
        Nat.div_eq_of_lt_le (k := 1) (by omega) (by omega)
      have hbit : (j / cur).testBit 0 = true := by
        rw [Nat.testBit_zero]
        simp [hdiv2.symm.trans hd1]
      rw [if_neg hlt, if_pos hmlt, hj2, hbit, if_pos rfl]
      ring

/-- Helper: the single-pass expansion computes `mul_factor * eqTable`,
whatever the prior contents of the buffer. -/
theorem eq_evals_at_primitive_spec {F : Type} [CommRing F] (r : List F)
    (mulFactor : F) (eqInit : ℕ → F) :
    ∀ i < 2 ^ r.length, eq_evals_at_primitive r mulFactor eqInit i =
      mulFactor * eqTable r i := by
  intro i hi
  have h := eqPrimitiveGo_spec r 1 (Function.update eqInit 0 mulFactor)
    (by omega) i (by omega)
  rw [eq_evals_at_primitive, h, Nat.mod_one, Nat.div_one, Function.update_same, eqTable]

/-- Helper: `eqTable` splits along a bit cut: the low `h` bits of `i` index
the first `h` challenge entries, the high bits the rest. -/
theorem eqTable_split {F : Type} [CommRing F] (r : List F) (hsplit : ℕ)
    (hle : hsplit ≤ r.length) (i : ℕ) :
    eqTable r i =
      eqTable (r.take hsplit) (i % 2 ^ hsplit) * eqTable (r.drop hsplit) (i / 2 ^ hsplit) := by
  simp only [eqTable, List.length_take, List.length_drop, Nat.min_eq_left hle]
  set d := r.length - hsplit with hd
  have hlen : r.length = hsplit + d := by omega
  rw [hlen, Finset.prod_range_add]
  congr 1
  · refine Finset.prod_congr rfl (fun b hb => ?_)
    rw [Finset.mem_range] at hb
    rw [Nat.testBit_mod_two_pow, getD_take _ _ _ _ hb]
    simp [hb]
  · refine Finset.prod_congr rfl (fun b _ => ?_)
    rw [getD_drop]
    have hbit : (i / 2 ^ hsplit).testBit b = i.testBit (hsplit + b) := by
      rw [← Nat.shiftRight_eq_div_pow, Nat.testBit_shiftRight]
    rw [hbit]

/-- C3: the split-halves expansion `eq_eval_at` agrees with the direct
single-pass expansion `eq_evals_at_primitive` on every entry `i < 2^|r|`,
both computing `m · eq(r, i)` (with `eq_eval_at` filling entry `i` with
`sqrt_n_1st[i mod 2^h] * sqrt_n_2nd[i div 2^h]`, `h = ⌊|r|/2⌋`); and after
the `prepare_g_x_vals` equality-table phase,
`eq_evals_at_rz0[i] = α·eq(rz0, i) + β·eq(rz1, i)` for every
`i < 2^output_var_num`, whatever the prior buffer contents. -/
theorem eq_eval_at_correct {F : Type} [CommRing F] (r rz0 rz1 : List F)
    (mulFactor alpha beta : F)
    (eqInit sqrt1Init sqrt2Init rz0Init rz1Init half1Init half2Init : ℕ → F) :
    (∀ i < 2 ^ r.length,
      eq_eval_at r mulFactor eqInit sqrt1Init sqrt2Init i = mulFactor * eqTable r i ∧
      eq_evals_at_primitive r mulFactor eqInit i = mulFactor * eqTable r i) ∧
    (rz1.length = rz0.length → ∀ i < 2 ^ rz0.length,
      prepare_g_x_eq rz0 rz1 alpha beta rz0Init rz1Init half1Init half2Init i =
        alpha * eqTable rz0 i + beta * eqTable rz1 i) := by
  have main : ∀ (l : List F) (m : F) (eI s1I s2I : ℕ → F), ∀ i < 2 ^ l.length,
      eq_eval_at l m eI s1I s2I i = m * eqTable l i := by
    intro l m eI s1I s2I i hi
    have hhb : l.length / 2 ≤ l.length := Nat.div_le_self _ _
    have htake : (l.take (l.length / 2)).length = l.length / 2 := by
      rw [List.length_take, Nat.min_eq_left hhb]
    have hdrop : (l.drop (l.length / 2)).length = l.length - l.length / 2 :=
      List.length_drop _ _
    have hmlt : i % 2 ^ (l.length / 2) < 2 ^ (l.length / 2) :=
      Nat.mod_lt _ (Nat.pos_pow_of_pos _ (by omega))
    have hdlt : i / 2 ^ (l.length / 2) < 2 ^ (l.length - l.length / 2) := by
      rw [Nat.div_lt_iff_lt_mul (Nat.pos_pow_of_pos _ (by omega)), ← pow_add]
      have : l.length - l.length / 2 + l.length / 2 = l.length := by omega
      rw [this]
      exact hi
    simp only [eq_eval_at, if_pos hi]
    rw [eq_evals_at_primitive_spec _ _ _ _ (by rw [htake]; exact hmlt),
        eq_evals_at_primitive_spec _ _ _ _ (by rw [hdrop]; exact hdlt),
        eqTable_split l (l.length / 2) hhb i]
    ring
  refine ⟨fun i hi => ⟨main r mulFactor eqInit sqrt1Init sqrt2Init i hi,
    eq_evals_at_primitive_spec r mulFactor eqInit i hi⟩, fun hlen i hi => ?_⟩
  simp only [prepare_g_x_eq, if_pos hi]
  rw [main rz0 alpha rz0Init half1Init half2Init i hi,
      main rz1 beta rz1Init half1Init half2Init i (by rw [hlen]; exact hi)]

/-- Witness for C3: challenge vectors `rz0 = [2, 7]`, `rz1 = [3, 11]` over
`ℤ` with multiplier `5`, evaluated at index 1. -/
theorem eq_eval_at_correct_witness :
    eq_eval_at [(2 : ℤ), 7] 5 (fun _ => 9) (fun _ => 8) (fun _ => 4) 1 =
        5 * eqTable [(2 : ℤ), 7] 1 ∧
      prepare_g_x_eq [(2 : ℤ), 7] [3, 11] 5 6 (fun _ => 9) (fun _ => 9)
          (fun _ => 8) (fun _ => 4) 1 =
        5 * eqTable [(2 : ℤ), 7] 1 + 6 * eqTable [3, 11] 1 :=
  ⟨((eq_eval_at_correct [(2 : ℤ), 7] [2, 7] [3, 11] 5 5 6 (fun _ => 9) (fun _ => 8)
      (fun _ => 4) (fun _ => 9) (fun _ => 9) (fun _ => 8) (fun _ => 4)).1
      1 (by decide)).1,
   (eq_eval_at_correct [(2 : ℤ), 7] [2, 7] [3, 11] 5 5 6 (fun _ => 9) (fun _ => 8)
      (fun _ => 4) (fun _ => 9) (fun _ => 9) (fun _ => 8) (fun _ => 4)).2
      (by decide) 1 (by decide)⟩


/-- Helper: a `set`-accumulate fold preserves the list length. -/
theorem foldl_set_length {F : Type} [CommRing F] {β : Type} (o : β → ℕ) (t : β → F)
    (gates : List β) (res : List F) :
    (gates.foldl (fun r g => r.set (o g) (r.getD (o g) 0 + t g)) res).length =
      res.length := by
  induction gates generalizing res with
  | nil => rfl
  | cons g rest ih => rw [List.foldl_cons, ih, List.length_set]

/-- Helper: after a `set`-accumulate fold over a gate list, entry `i` holds
its initial value plus the sum of the terms of the gates targeting `i`. -/
theorem foldl_set_spec {F : Type} [CommRing F] {β : Type} (o : β → ℕ) (t : β → F)
    (gates : List β) (res : List F) (i : ℕ) (hi : i < res.length) :
    (gates.foldl (fun r g => r.set (o g) (r.getD (o g) 0 + t g)) res).getD i 0 =
      res.getD i 0 + ((gates.filter (fun g => o g = i)).map t).sum := by
  induction gates generalizing res with
  | nil => simp
  | cons g rest ih =>
    rw [List.foldl_cons, ih _ (by rw [List.length_set]; exact hi)]
    by_cases ho : o g = i
    · subst ho
      rw [List.getD_eq_getElem?_getD, List.getElem?_set_self (by omega),
          List.filter_cons_of_pos (by simp), List.map_cons, List.sum_cons]
      rw [List.getD_eq_getElem?_getD]
      simp only [Option.getD_some]
      ring
    · rw [List.getD_eq_getElem?_getD, List.getElem?_set_ne ho, ← List.getD_eq_getElem?_getD,
          List.filter_cons_of_neg (by simp [ho])]

/-- Helper: when every uni gate has a known `gate_type`, the fallible uni
fold succeeds and equals the corresponding pure `set`-accumulate fold. -/
theorem uni_foldlM_ok {F : Type} [CommRing F] (vals : List F)
    (gates : List (GateUni F)) (res : List F)
    (h : ∀ g ∈ gates, g.gateType = 12345 ∨ g.gateType = 12346) :
    gates.foldlM
      (fun (res : List F) g =>
        if g.gateType = 12345 then
          let i0 := vals.getD g.i0 0
          let i02 := i0 * i0
          let i04 := i02 * i02
          some (res.set g.o (res.getD g.o 0 + i04 * i0 * g.coef))
        else if g.gateType = 12346 then
          some (res.set g.o (res.getD g.o 0 + vals.getD g.i0 0 * g.coef))
        else none)
      res =
    some (gates.foldl
      (fun (res : List F) g => res.set g.o (res.getD g.o 0 +
        (if g.gateType = 12345 then
          vals.getD g.i0 0 * vals.getD g.i0 0 * (vals.getD g.i0 0 * vals.getD g.i0 0) *
            vals.getD g.i0 0 * g.coef
        else vals.getD g.i0 0 * g.coef)))
      res) := by
  induction gates generalizing res with
  | nil => rfl
  | cons g rest ih =>
    rcases h g (List.mem_cons_self g rest) with hg | hg
    · rw [List.foldlM_cons, if_pos hg, List.foldl_cons, if_pos hg]
      simp only [Option.bind_eq_bind, Option.some_bind]
      rw [ih _ (fun g hg => h g (List.mem_cons_of_mem _ hg))]
    · by_cases hg5 : g.gateType = 12345
      · rw [List.foldlM_cons, if_pos hg5, List.foldl_cons, if_pos hg5]
        simp only [Option.bind_eq_bind, Option.some_bind]
        rw [ih _ (fun g hg => h g (List.mem_cons_of_mem _ hg))]
      · rw [List.foldlM_cons, if_neg hg5, if_pos hg, List.foldl_cons, if_neg hg5]
        simp only [Option.bind_eq_bind, Option.some_bind]
        rw [ih _ (fun g hg => h g (List.mem_cons_of_mem _ hg))]

/-- Helper: a uni gate with an unknown `gate_type` makes the fallible uni
fold fatal. -/
theorem uni_foldlM_bad {F : Type} [CommRing F] (vals : List F)
    (gates : List (GateUni F)) (res : List F)
    (h : ∃ g ∈ gates, g.gateType ≠ 12345 ∧ g.gateType ≠ 12346) :
    gates.foldlM
      (fun (res : List F) g =>
        if g.gateType = 12345 then
          let i0 := vals.getD g.i0 0
          let i02 := i0 * i0
          let i04 := i02 * i02
          some (res.set g.o (res.getD g.o 0 + i04 * i0 * g.coef))
        else if g.gateType = 12346 then
          some (res.set g.o (res.getD g.o 0 + vals.getD g.i0 0 * g.coef))
        else none)
      res = none := by
  induction gates generalizing res with
  | nil => simp at h
  | cons g rest ih =>
    rcases h with ⟨g', hmem, hbad⟩
    rcases List.mem_cons.mp hmem with heq | hmem'
    · subst heq
      rw [List.foldlM_cons, if_neg hbad.1, if_neg hbad.2]
      rfl
    · rw [List.foldlM_cons]
      by_cases h5 : g.gateType = 12345
      · rw [if_pos h5]
        simp only [Option.bind_eq_bind, Option.some_bind]
        exact ih _ ⟨g', hmem', hbad⟩
      · by_cases h6 : g.gateType = 12346
        · rw [if_neg h5, if_pos h6]
          simp only [Option.bind_eq_bind, Option.some_bind]
          exact ih _ ⟨g', hmem', hbad⟩
        · rw [if_neg h5, if_neg h6]
          rfl

/-- Helper: entries of a zero-filled buffer read back zero. -/
theorem getD_replicate_zero {F : Type} [CommRing F] (n o : ℕ) :
    (List.replicate n (0 : F)).getD o 0 = 0 := by
  rw [List.getD_eq_getElem?_getD, List.getElem?_replicate]
  split <;> rfl

/-- Helper: on a layer whose uni gates all dispatch, `CircuitLayer.evaluate`
succeeds with a vector of length `2^output_var_num` whose entry `o`
accumulates, from zero, the mul, add, const and uni gates targeting `o`. -/
theorem layer_evaluate_ok {F : Type} [CommRing F] (l : CircuitLayer F)
    (huni : ∀ g ∈ l.uni, g.gateType = 12345 ∨ g.gateType = 12346) :
    ∃ res, l.evaluate = some res ∧ res.length = 2 ^ l.outputVarNum ∧
      ∀ o < 2 ^ l.outputVarNum, res.getD o 0 =
        ((l.mul.filter (fun g => g.o = o)).map
          (fun g => l.inputVals.getD g.i0 0 * l.inputVals.getD g.i1 0 * g.coef)).sum +
        ((l.add.filter (fun g => g.o = o)).map
          (fun g => l.inputVals.getD g.i0 0 * g.coef)).sum +
        ((l.const.filter (fun g => g.o = o)).map (fun g => g.coef)).sum +
        ((l.uni.filter (fun g => g.o = o)).map
          (fun g => if g.gateType = 12345 then l.inputVals.getD g.i0 0 ^ 5 * g.coef
            else l.inputVals.getD g.i0 0 * g.coef)).sum := by
  simp only [CircuitLayer.evaluate]
  rw [uni_foldlM_ok _ _ _ huni]
  refine ⟨_, rfl, ?_, ?_⟩
  · rw [foldl_set_length (fun g : GateUni F => g.o), foldl_set_length (fun g : GateCst F => g.o),
        foldl_set_length (fun g : GateAdd F => g.o), foldl_set_length (fun g : GateMul F => g.o),
        List.length_replicate]
  · intro o ho
    have hlen0 : (List.replicate (2 ^ l.outputVarNum) (0 : F)).length = 2 ^ l.outputVarNum :=
      List.length_replicate _ _
    have hlen1 : (l.mul.foldl (fun res g => res.set g.o (res.getD g.o 0 +
        l.inputVals.getD g.i0 0 * l.inputVals.getD g.i1 0 * g.coef))
        (List.replicate (2 ^ l.outputVarNum) (0 : F))).length = 2 ^ l.outputVarNum := by
      rw [foldl_set_length (fun g : GateMul F => g.o), hlen0]
    have hlen2 : (l.add.foldl (fun res g => res.set g.o (res.getD g.o 0 +
        l.inputVals.getD g.i0 0 * g.coef))
        (l.mul.foldl (fun res g => res.set g.o (res.getD g.o 0 +
          l.inputVals.getD g.i0 0 * l.inputVals.getD g.i1 0 * g.coef))
          (List.replicate (2 ^ l.outputVarNum) (0 : F)))).length = 2 ^ l.outputVarNum := by
      rw [foldl_set_length (fun g : GateAdd F => g.o), hlen1]
    have hlen3 : (l.const.foldl (fun res g => res.set g.o (res.getD g.o 0 + g.coef))
        (l.add.foldl (fun res g => res.set g.o (res.getD g.o 0 +
          l.inputVals.getD g.i0 0 * g.coef))
          (l.mul.foldl (fun res g => res.set g.o (res.getD g.o 0 +
            l.inputVals.getD g.i0 0 * l.inputVals.getD g.i1 0 * g.coef))
            (List.replicate (2 ^ l.outputVarNum) (0 : F))))).length = 2 ^ l.outputVarNum := by
      rw [foldl_set_length (fun g : GateCst F => g.o), hlen2]
    have h4 := foldl_set_spec (fun g : GateUni F => g.o)
      (fun g => if g.gateType = 12345 then
          l.inputVals.getD g.i0 0 * l.inputVals.getD g.i0 0 *
            (l.inputVals.getD g.i0 0 * l.inputVals.getD g.i0 0) *
            l.inputVals.getD g.i0 0 * g.coef
        else l.inputVals.getD g.i0 0 * g.coef)
      l.uni _ o (by rw [hlen3]; exact ho)
    have h3 := foldl_set_spec (fun g : GateCst F => g.o) (fun g => g.coef)
      l.const _ o (by rw [hlen2]; exact ho)
    have h2 := foldl_set_spec (fun g : GateAdd F => g.o)
      (fun g => l.inputVals.getD g.i0 0 * g.coef) l.add _ o (by rw [hlen1]; exact ho)
    have h1 := foldl_set_spec (fun g : GateMul F => g.o)
      (fun g => l.inputVals.getD g.i0 0 * l.inputVals.getD g.i1 0 * g.coef)
      l.mul _ o (by rw [hlen0]; exact ho)
    rw [h4, h3, h2, h1, getD_replicate_zero]
    have huniSum : ((l.uni.filter (fun g => g.o = o)).map
        (fun g => if g.gateType = 12345 then
            l.inputVals.getD g.i0 0 * l.inputVals.getD g.i0 0 *
              (l.inputVals.getD g.i0 0 * l.inputVals.getD g.i0 0) *
              l.inputVals.getD g.i0 0 * g.coef
          else l.inputVals.getD g.i0 0 * g.coef)).sum =
        ((l.uni.filter (fun g => g.o = o)).map
          (fun g => if g.gateType = 12345 then l.inputVals.getD g.i0 0 ^ 5 * g.coef
            else l.inputVals.getD g.i0 0 * g.coef)).sum := by
      refine congrArg List.sum (List.map_congr_left (fun g _ => ?_))
      by_cases hg : g.gateType = 12345
      · rw [if_pos hg, if_pos hg]
        ring
      · rw [if_neg hg, if_neg hg]
    rw [huniSum]
    ring

/-- Helper: the layer-chaining loop.  On success the output list keeps the
head's inputs and evaluation behaviour, chains each layer's result into the
next layer's `input_vals`, and stores the terminal layer's result in its
`output_vals`. -/
theorem circuitEvaluateGo_spec {F : Type} [CommRing F] (rest : List (CircuitLayer F)) :
    ∀ (cur : CircuitLayer F) (out : List (CircuitLayer F)),
      circuitEvaluateGo cur rest = some out →
      out.length = rest.length + 1 ∧
      (out.getD 0 emptyLayer).inputVals = cur.inputVals ∧
      (out.getD 0 emptyLayer).evaluate = cur.evaluate ∧
      (∀ i, i + 1 < out.length →
        ∃ res, (out.getD i emptyLayer).evaluate = some res ∧
          (out.getD (i + 1) emptyLayer).inputVals = res) ∧
      (out.getD (out.length - 1) emptyLayer).evaluate =
        some (out.getD (out.length - 1) emptyLayer).outputVals := by
  induction rest with
  | nil =>
    intro cur out hgo
    simp only [circuitEvaluateGo] at hgo
    cases hev : cur.evaluate with
    | none => rw [hev] at hgo; simp at hgo
    | some v =>
      rw [hev] at hgo
      simp only [Option.bind_eq_bind, Option.some_bind, Option.some.injEq] at hgo
      subst hgo
      refine ⟨rfl, rfl, hev, ?_, ?_⟩
      · intro i hi
        simp at hi
      · simpa using hev
  | cons next rest2 ih =>
    intro cur out hgo
    simp only [circuitEvaluateGo] at hgo
    cases hev : cur.evaluate with
    | none => rw [hev] at hgo; simp at hgo
    | some v =>
      rw [hev] at hgo
      simp only [Option.bind_eq_bind, Option.some_bind] at hgo
      cases htail : circuitEvaluateGo { next with inputVals := v } rest2 with
      | none => rw [htail] at hgo; simp at hgo
      | some tail =>
        rw [htail] at hgo
        simp only [Option.some_bind, Option.some.injEq] at hgo
        subst hgo
        obtain ⟨hlen, hhead, hheadev, hpairs, hlast⟩ := ih _ _ htail
        have htne : tail ≠ [] := by
          intro hne
          rw [hne] at hlen
          simp at hlen
        refine ⟨by simp [hlen], rfl, hev, ?_, ?_⟩
        · intro i hi
          cases i with
          | zero =>
            refine ⟨v, hev, ?_⟩
            have : (cur :: tail).getD 1 emptyLayer = tail.getD 0 emptyLayer := by
              cases tail with
              | nil => exact absurd rfl htne
              | cons t ts => rfl
            rw [this, hhead]
          | succ j =>
            have hj : j + 1 < tail.length := by
              simp only [List.length_cons] at hi
              omega
            obtain ⟨res, h1, h2⟩ := hpairs j hj
            refine ⟨res, ?_, ?_⟩
            · have : (cur :: tail).getD (j + 1) emptyLayer = tail.getD j emptyLayer := rfl
              rw [this, h1]
            · have : (cur :: tail).getD (j + 2) emptyLayer = tail.getD (j + 1) emptyLayer := rfl
              rw [this, h2]
        · have hl : (cur :: tail).length - 1 = tail.length - 1 + 1 := by
            simp only [List.length_cons]
            omega
          rw [hl]
          have : ∀ m, (cur :: tail).getD (m + 1) emptyLayer = tail.getD m emptyLayer :=
            fun m => rfl
          rw [this]
          exact hlast

/-- C7: `CircuitLayer::evaluate` produces a vector of length
`2^output_var_num` in which entry `o` sums, from zero, `(in[i0]*in[i1])*coef`
over mul gates with `o_id = o`, `in[i0]*coef` over add gates, `coef` over
const gates, and `in[i0]^5*coef` (two squarings and a multiply) resp.
`in[i0]*coef` over uni gates of type 12345 resp. 12346, any other uni type
being fatal; and `Circuit::evaluate` writes each non-terminal layer's result
into the next layer's `input_vals` and the terminal layer's result into its
own `output_vals`. -/
theorem circuit_evaluate_spec {F : Type} [CommRing F] (l : CircuitLayer F)
    (c c' : Circuit F) :
    ((∀ g ∈ l.uni, g.gateType = 12345 ∨ g.gateType = 12346) →
      ∃ res, l.evaluate = some res ∧ res.length = 2 ^ l.outputVarNum ∧
        ∀ o < 2 ^ l.outputVarNum, res.getD o 0 =
          ((l.mul.filter (fun g => g.o = o)).map
            (fun g => l.inputVals.getD g.i0 0 * l.inputVals.getD g.i1 0 * g.coef)).sum +
          ((l.add.filter (fun g => g.o = o)).map
            (fun g => l.inputVals.getD g.i0 0 * g.coef)).sum +
          ((l.const.filter (fun g => g.o = o)).map (fun g => g.coef)).sum +
          ((l.uni.filter (fun g => g.o = o)).map
            (fun g => if g.gateType = 12345 then l.inputVals.getD g.i0 0 ^ 5 * g.coef
              else l.inputVals.getD g.i0 0 * g.coef)).sum) ∧
    ((∃ g ∈ l.uni, g.gateType ≠ 12345 ∧ g.gateType ≠ 12346) → l.evaluate = none) ∧
    (c.evaluate = some c' →
      c'.layers.length = c.layers.length ∧
      (∀ i, i + 1 < c'.layers.length →
        ∃ res, (c'.layers.getD i emptyLayer).evaluate = some res ∧
          (c'.layers.getD (i + 1) emptyLayer).inputVals = res) ∧
      (c'.layers.getD (c'.layers.length - 1) emptyLayer).evaluate =
        some (c'.layers.getD (c'.layers.length - 1) emptyLayer).outputVals) := by
  refine ⟨layer_evaluate_ok l, ?_, ?_⟩
  · intro hbad
    simp only [CircuitLayer.evaluate]
    exact uni_foldlM_bad l.inputVals l.uni _ hbad
  · intro hev
    obtain ⟨ls⟩ := c
    cases ls with
    | nil => simp [Circuit.evaluate] at hev
    | cons l0 rest =>
      simp only [Circuit.evaluate] at hev
      cases hgo : circuitEvaluateGo l0 rest with
      | none => rw [hgo] at hev; simp at hev
      | some layers =>
        rw [hgo] at hev
        simp only [Option.bind_eq_bind, Option.some_bind, Option.some.injEq] at hev
        obtain ⟨hlen, _, _, hpairs, hlast⟩ := circuitEvaluateGo_spec rest l0 layers hgo
        subst hev
        exact ⟨by simpa using hlen, hpairs, hlast⟩

/-- Witness for C7: a one-layer circuit over `ℤ` with an add gate (`coef 3`)
and a linear uni gate (`coef 2`) on input `[5]` evaluates to `[15, 10]`,
stored in the terminal layer's `output_vals`. -/
theorem circuit_evaluate_spec_witness :
    (⟨[⟨0, 1, [5], [15, 10], [], [⟨0, 0, (3 : ℤ), CoefTy.constant, 0⟩], [],
        [⟨0, 1, 2, CoefTy.constant, 12346⟩]⟩]⟩ : Circuit ℤ).layers.length =
      (⟨[⟨0, 1, [5], [], [], [⟨0, 0, (3 : ℤ), CoefTy.constant, 0⟩], [],
        [⟨0, 1, 2, CoefTy.constant, 12346⟩]⟩]⟩ : Circuit ℤ).layers.length ∧
    (∀ i, i + 1 < (⟨[⟨0, 1, [5], [15, 10], [], [⟨0, 0, (3 : ℤ), CoefTy.constant, 0⟩], [],
        [⟨0, 1, 2, CoefTy.constant, 12346⟩]⟩]⟩ : Circuit ℤ).layers.length →
      ∃ res, ((⟨[⟨0, 1, [5], [15, 10], [], [⟨0, 0, (3 : ℤ), CoefTy.constant, 0⟩], [],
          [⟨0, 1, 2, CoefTy.constant, 12346⟩]⟩]⟩ : Circuit ℤ).layers.getD i
          emptyLayer).evaluate = some res ∧
        ((⟨[⟨0, 1, [5], [15, 10], [], [⟨0, 0, (3 : ℤ), CoefTy.constant, 0⟩], [],
          [⟨0, 1, 2, CoefTy.constant, 12346⟩]⟩]⟩ : Circuit ℤ).layers.getD (i + 1)
          emptyLayer).inputVals = res) ∧
    ((⟨[⟨0, 1, [5], [15, 10], [], [⟨0, 0, (3 : ℤ), CoefTy.constant, 0⟩], [],
        [⟨0, 1, 2, CoefTy.constant, 12346⟩]⟩]⟩ : Circuit ℤ).layers.getD
        ((⟨[⟨0, 1, [5], [15, 10], [], [⟨0, 0, (3 : ℤ), CoefTy.constant, 0⟩], [],
          [⟨0, 1, 2, CoefTy.constant, 12346⟩]⟩]⟩ : Circuit ℤ).layers.length - 1)
        emptyLayer).evaluate =
      some ((⟨[⟨0, 1, [5], [15, 10], [], [⟨0, 0, (3 : ℤ), CoefTy.constant, 0⟩], [],
        [⟨0, 1, 2, CoefTy.constant, 12346⟩]⟩]⟩ : Circuit ℤ).layers.getD
        ((⟨[⟨0, 1, [5], [15, 10], [], [⟨0, 0, (3 : ℤ), CoefTy.constant, 0⟩], [],
          [⟨0, 1, 2, CoefTy.constant, 12346⟩]⟩]⟩ : Circuit ℤ).layers.length - 1)
        emptyLayer).outputVals :=
  (circuit_evaluate_spec emptyLayer
    ⟨[⟨0, 1, [5], [], [], [⟨0, 0, (3 : ℤ), CoefTy.constant, 0⟩], [],
      [⟨0, 1, 2, CoefTy.constant, 12346⟩]⟩]⟩
    ⟨[⟨0, 1, [5], [15, 10], [], [⟨0, 0, (3 : ℤ), CoefTy.constant, 0⟩], [],
      [⟨0, 1, 2, CoefTy.constant, 12346⟩]⟩]⟩).2.2 (by decide)

/-- Helper: the final blend-and-reduce of the AVX multiplication, for a raw
64-bit lane product `P` of two canonical M31 values. -/
theorem m31MulScalarAux (P : ℕ) (hb : P ≤ 2147483646 * 2147483646) :
    min ((P / 2147483648 + P % 2147483648) % 4294967296)
      ((P / 2147483648 + P % 2147483648 + 2147483649) % 4294967296) = P % 2147483647 := by
  have h3 : P % 2147483647 = (P / 2147483648 + P % 2147483648) % 2147483647 := by omega
  set s := P / 2147483648 + P % 2147483648 with hs
  have h4 : s < 4294967294 := by omega
  by_cases hcase : s < 2147483647
  · have h5 : (s + 2147483649) % 4294967296 = s + 2147483649 := Nat.mod_eq_of_lt (by omega)
    rw [h5]
    omega
  · have h5 : (s + 2147483649) % 4294967296 = s - 2147483647 := by omega
    rw [h5]
    omega

set_option maxHeartbeats 3200000 in
/-- Helper: the AVX multiplication is lane-wise M31 multiplication on
canonical inputs. -/
theorem avxMul_lane (x y : M31Vec) (hx : ∀ i, x i < m31P) (hy : ∀ i, y i < m31P)
    (i : Fin 8) : avxMul x y i = x i * y i % m31P := by
  obtain ⟨iv, hiv⟩ := i
  interval_cases iv
  · simp only [avxMul, mmSrl64, mmMovehdup, mmMulEpu32, mmSll64, mmBlendOdd, mmAndMod,
      mmAdd32, mmSub32, mmMin32, to64, to32, packedMod, m31P]
    norm_num
    try simp only [show (⟨0, by omega⟩ : Fin 8) = (0 : Fin 8) from rfl,
      show (⟨1, by omega⟩ : Fin 8) = (1 : Fin 8) from rfl]
    have h1 := hx 0
    have h2 := hy 0
    rw [show m31P = 2147483647 from rfl] at h1 h2
    have hb : x 0 * y 0 ≤ 2147483646 * 2147483646 := Nat.mul_le_mul (by omega) (by omega)
    have hxe : x 0 % 4294967296 = x 0 := Nat.mod_eq_of_lt (by omega)
    have hye : y 0 % 4294967296 = y 0 := Nat.mod_eq_of_lt (by omega)
    rw [hxe, hye]
    generalize hP : x 0 * y 0 = P at hb ⊢
    have hrec : P % 4294967296 + 4294967296 * (P / 4294967296 % 4294967296) = P := by omega
    rw [hrec]
    exact m31MulScalarAux P hb
  · simp only [avxMul, mmSrl64, mmMovehdup, mmMulEpu32, mmSll64, mmBlendOdd, mmAndMod,
      mmAdd32, mmSub32, mmMin32, to64, to32, packedMod, m31P]
    norm_num
    try simp only [show (⟨0, by omega⟩ : Fin 8) = (0 : Fin 8) from rfl,
      show (⟨1, by omega⟩ : Fin 8) = (1 : Fin 8) from rfl]
    have h1 := hx 0
    have h2 := hx 1
    have h3 := hy 1
    rw [show m31P = 2147483647 from rfl] at h1 h2 h3
    have hsh : (x 0 + 4294967296 * x 1) / 2147483648 = 2 * x 1 := by omega
    rw [hsh]
    have h2b : 2 * x 1 % 4294967296 = 2 * x 1 := Nat.mod_eq_of_lt (by omega)
    have h3b : y 1 % 4294967296 = y 1 := Nat.mod_eq_of_lt (by omega)
    rw [h2b, h3b]
    rw [mul_assoc 2 (x 1) (y 1)]
    have hb : x 1 * y 1 ≤ 2147483646 * 2147483646 := Nat.mul_le_mul (by omega) (by omega)
    generalize hP : x 1 * y 1 = P at hb ⊢
    have hrec : 2 * P % 4294967296 + 4294967296 * (2 * P / 4294967296 % 4294967296) = 2 * P := by
      omega
    rw [hrec]
    have e2 : 2 * P * 2147483648 % 18446744073709551616 / 4294967296 % 2147483648 =
        P % 2147483648 := by omega
    rw [e2]
    have e3 : 2 * P / 4294967296 = P / 2147483648 := by omega
    rw [e3]
    exact m31MulScalarAux P hb
  · simp only [avxMul, mmSrl64, mmMovehdup, mmMulEpu32, mmSll64, mmBlendOdd, mmAndMod,
      mmAdd32, mmSub32, mmMin32, to64, to32, packedMod, m31P]
    norm_num
    try simp only [show (⟨2, by omega⟩ : Fin 8) = (2 : Fin 8) from rfl,
      show (⟨3, by omega⟩ : Fin 8) = (3 : Fin 8) from rfl]
    have h1 := hx 2
    have h2 := hy 2
    rw [show m31P = 2147483647 from rfl] at h1 h2
    have hb : x 2 * y 2 ≤ 2147483646 * 2147483646 := Nat.mul_le_mul (by omega) (by omega)
    have hxe : x 2 % 4294967296 = x 2 := Nat.mod_eq_of_lt (by omega)
    have hye : y 2 % 4294967296 = y 2 := Nat.mod_eq_of_lt (by omega)
    rw [hxe, hye]
    generalize hP : x 2 * y 2 = P at hb ⊢
    have hrec : P % 4294967296 + 4294967296 * (P / 4294967296 % 4294967296) = P := by omega
    rw [hrec]
    exact m31MulScalarAux P hb
  · simp only [avxMul, mmSrl64, mmMovehdup, mmMulEpu32, mmSll64, mmBlendOdd, mmAndMod,
      mmAdd32, mmSub32, mmMin32, to64, to32, packedMod, m31P]
    norm_num
    try simp only [show (⟨2, by omega⟩ : Fin 8) = (2 : Fin 8) from rfl,
      show (⟨3, by omega⟩ : Fin 8) = (3 : Fin 8) from rfl]
    have h1 := hx 2
    have h2 := hx 3
    have h3 := hy 3
    rw [show m31P = 2147483647 from rfl] at h1 h2 h3
    have hsh : (x 2 + 4294967296 * x 3) / 2147483648 = 2 * x 3 := by omega
    rw [hsh]
    have h2b : 2 * x 3 % 4294967296 = 2 * x 3 := Nat.mod_eq_of_lt (by omega)
    have h3b : y 3 % 4294967296 = y 3 := Nat.mod_eq_of_lt (by omega)
    rw [h2b, h3b]
    rw [mul_assoc 2 (x 3) (y 3)]
    have hb : x 3 * y 3 ≤ 2147483646 * 2147483646 := Nat.mul_le_mul (by omega) (by omega)
    generalize hP : x 3 * y 3 = P at hb ⊢
    have hrec : 2 * P % 4294967296 + 4294967296 * (2 * P / 4294967296 % 4294967296) = 2 * P := by
      omega
    rw [hrec]
    have e2 : 2 * P * 2147483648 % 18446744073709551616 / 4294967296 % 2147483648 =
        P % 2147483648 := by omega
    rw [e2]
    have e3 : 2 * P / 4294967296 = P / 2147483648 := by omega
    rw [e3]
    exact m31MulScalarAux P hb
  · simp only [avxMul, mmSrl64, mmMovehdup, mmMulEpu32, mmSll64, mmBlendOdd, mmAndMod,
      mmAdd32, mmSub32, mmMin32, to64, to32, packedMod, m31P]
    norm_num
    try simp only [show (⟨4, by omega⟩ : Fin 8) = (4 : Fin 8) from rfl,
      show (⟨5, by omega⟩ : Fin 8) = (5 : Fin 8) from rfl]
    have h1 := hx 4
    have h2 := hy 4
    rw [show m31P = 2147483647 from rfl] at h1 h2
    have hb : x 4 * y 4 ≤ 2147483646 * 2147483646 := Nat.mul_le_mul (by omega) (by omega)
    have hxe : x 4 % 4294967296 = x 4 := Nat.mod_eq_of_lt (by omega)
    have hye : y 4 % 4294967296 = y 4 := Nat.mod_eq_of_lt (by omega)
    rw [hxe, hye]
    generalize hP : x 4 * y 4 = P at hb ⊢
    have hrec : P % 4294967296 + 4294967296 * (P / 4294967296 % 4294967296) = P := by omega
    rw [hrec]
    exact m31MulScalarAux P hb
  · simp only [avxMul, mmSrl64, mmMovehdup, mmMulEpu32, mmSll64, mmBlendOdd, mmAndMod,
      mmAdd32, mmSub32, mmMin32, to64, to32, packedMod, m31P]
    norm_num
    try simp only [show (⟨4, by omega⟩ : Fin 8) = (4 : Fin 8) from rfl,
      show (⟨5, by omega⟩ : Fin 8) = (5 : Fin 8) from rfl]
    have h1 := hx 4
    have h2 := hx 5
    have h3 := hy 5
    rw [show m31P = 2147483647 from rfl] at h1 h2 h3
    have hsh : (x 4 + 4294967296 * x 5) / 2147483648 = 2 * x 5 := by omega
    rw [hsh]
    have h2b : 2 * x 5 % 4294967296 = 2 * x 5 := Nat.mod_eq_of_lt (by omega)
    have h3b : y 5 % 4294967296 = y 5 := Nat.mod_eq_of_lt (by omega)
    rw [h2b, h3b]
    rw [mul_assoc 2 (x 5) (y 5)]
    have hb : x 5 * y 5 ≤ 2147483646 * 2147483646 := Nat.mul_le_mul (by omega) (by omega)
    generalize hP : x 5 * y 5 = P at hb ⊢
    have hrec : 2 * P % 4294967296 + 4294967296 * (2 * P / 4294967296 % 4294967296) = 2 * P := by
      omega
    rw [hrec]
    have e2 : 2 * P * 2147483648 % 18446744073709551616 / 4294967296 % 2147483648 =
        P % 2147483648 := by omega
    rw [e2]
    have e3 : 2 * P / 4294967296 = P / 2147483648 := by omega
    rw [e3]
    exact m31MulScalarAux P hb
  · simp only [avxMul, mmSrl64, mmMovehdup, mmMulEpu32, mmSll64, mmBlendOdd, mmAndMod,
      mmAdd32, mmSub32, mmMin32, to64, to32, packedMod, m31P]
    norm_num
    try simp only [show (⟨6, by omega⟩ : Fin 8) = (6 : Fin 8) from rfl,
      show (⟨7, by omega⟩ : Fin 8) = (7 : Fin 8) from rfl]
    have h1 := hx 6
    have h2 := hy 6
    rw [show m31P = 2147483647 from rfl] at h1 h2
    have hb : x 6 * y 6 ≤ 2147483646 * 2147483646 := Nat.mul_le_mul (by omega) (by omega)
    have hxe : x 6 % 4294967296 = x 6 := Nat.mod_eq_of_lt (by omega)
    have hye : y 6 % 4294967296 = y 6 := Nat.mod_eq_of_lt (by omega)
    rw [hxe, hye]
    generalize hP : x 6 * y 6 = P at hb ⊢
    have hrec : P % 4294967296 + 4294967296 * (P / 4294967296 % 4294967296) = P := by omega
    rw [hrec]
    exact m31MulScalarAux P hb
  · simp only [avxMul, mmSrl64, mmMovehdup, mmMulEpu32, mmSll64, mmBlendOdd, mmAndMod,
      mmAdd32, mmSub32, mmMin32, to64, to32, packedMod, m31P]
    norm_num
    try simp only [show (⟨6, by omega⟩ : Fin 8) = (6 : Fin 8) from rfl,
      show (⟨7, by omega⟩ : Fin 8) = (7 : Fin 8) from rfl]
    have h1 := hx 6
    have h2 := hx 7
    have h3 := hy 7
    rw [show m31P = 2147483647 from rfl] at h1 h2 h3
    have hsh : (x 6 + 4294967296 * x 7) / 2147483648 = 2 * x 7 := by omega
    rw [hsh]
    have h2b : 2 * x 7 % 4294967296 = 2 * x 7 := Nat.mod_eq_of_lt (by omega)
    have h3b : y 7 % 4294967296 = y 7 := Nat.mod_eq_of_lt (by omega)
    rw [h2b, h3b]
    rw [mul_assoc 2 (x 7) (y 7)]
    have hb : x 7 * y 7 ≤ 2147483646 * 2147483646 := Nat.mul_le_mul (by omega) (by omega)
    generalize hP : x 7 * y 7 = P at hb ⊢
    have hrec : 2 * P % 4294967296 + 4294967296 * (2 * P / 4294967296 % 4294967296) = 2 * P := by
      omega
    rw [hrec]
    have e2 : 2 * P * 2147483648 % 18446744073709551616 / 4294967296 % 2147483648 =
        P % 2147483648 := by omega
    rw [e2]
    have e3 : 2 * P / 4294967296 = P / 2147483648 := by omega
    rw [e3]
    exact m31MulScalarAux P hb

/-- Helper: the AVX addition is lane-wise M31 addition on canonical
inputs (the unsigned min picks the reduced representative whichever of the
two branches wrapped). -/
theorem avxAdd_lane (x y : M31Vec) (hx : ∀ i, x i < m31P) (hy : ∀ i, y i < m31P)
    (i : Fin 8) : avxAdd x y i = (x i + y i) % m31P := by
  have h1 := hx i
  have h2 := hy i
  rw [show m31P = 2147483647 from rfl] at h1 h2
  simp only [avxAdd, mmMin32, mmAdd32, mmSub32, packedMod, m31P]
  norm_num
  omega

/-- Helper: the AVX subtraction is lane-wise M31 subtraction on canonical
inputs. -/
theorem avxSub_lane (x y : M31Vec) (hx : ∀ i, x i < m31P) (hy : ∀ i, y i < m31P)
    (i : Fin 8) : avxSub x y i = (x i + (m31P - y i)) % m31P := by
  have h1 := hx i
  have h2 := hy i
  rw [show m31P = 2147483647 from rfl] at h1 h2
  simp only [avxSub, mmMin32, mmAdd32, mmSub32, packedMod, m31P]
  norm_num
  omega

/-- Helper: AND with the all-ones 32-bit mask is reduction mod `2^32`. -/
theorem mask32_and (v : ℕ) : 4294967295 &&& v = v % 4294967296 := by
  rw [Nat.and_comm]
  have h := Nat.and_pow_two_sub_one_eq_mod v 32
  norm_num at h
  exact h

/-- Helper: the AVX negation is lane-wise M31 negation on canonical
inputs (`p - x`, masked to zero where `x = 0`). -/
theorem avxNeg_lane (x : M31Vec) (hx : ∀ i, x i < m31P) (i : Fin 8) :
    avxNeg x i = (m31P - x i) % m31P := by
  have h1 := hx i
  rw [show m31P = 2147483647 from rfl] at h1
  simp only [avxNeg, mmAndnot, mmCmpEq32, mmSub32, packedMod, packFull, m31P]
  norm_num
  by_cases h0 : x i = 0
  · rw [if_pos h0]
    norm_num
    omega
  · rw [if_neg h0]
    norm_num
    rw [mask32_and]
    omega

/-- C4: packing is lane-wise homomorphic for `AVXM31`: on vectors whose
lanes are canonical M31 values in `[0, p)`, each lane of `x + y`, `x - y`,
`x * y` and `-x` equals (hence is congruent mod `p` to, and lies in `[0, p)
⊆ [0, p]` as) the canonical scalar M31 sum, difference, product and negation
of the corresponding lanes; in particular the lanewise unsigned
`min(result, result - p)` of `Add` reduces correctly whichever branch
wrapped. -/
theorem avx_m31_lanewise (x y : M31Vec) (hx : ∀ i, x i < m31P)
    (hy : ∀ i, y i < m31P) (i : Fin 8) :
    avxAdd x y i = (x i + y i) % m31P ∧ avxAdd x y i < m31P ∧
    avxSub x y i = (x i + (m31P - y i)) % m31P ∧ avxSub x y i < m31P ∧
    avxMul x y i = x i * y i % m31P ∧ avxMul x y i < m31P ∧
    avxNeg x i = (m31P - x i) % m31P ∧ avxNeg x i < m31P := by
  have hp : 0 < m31P := by rw [show m31P = 2147483647 from rfl]; omega
  refine ⟨avxAdd_lane x y hx hy i, ?_, avxSub_lane x y hx hy i, ?_,
    avxMul_lane x y hx hy i, ?_, avxNeg_lane x hx i, ?_⟩
  · rw [avxAdd_lane x y hx hy i]
    exact Nat.mod_lt _ hp
  · rw [avxSub_lane x y hx hy i]
    exact Nat.mod_lt _ hp
  · rw [avxMul_lane x y hx hy i]
    exact Nat.mod_lt _ hp
  · rw [avxNeg_lane x hx i]
    exact Nat.mod_lt _ hp

/-- Witness for C4: lanes including `0`, `p - 1` and small values, at
lane 1. -/
theorem avx_m31_lanewise_witness :
    avxAdd (fun i => if i.1 = 0 then 0 else if i.1 = 1 then 2147483646 else 5)
        (fun i => if i.1 = 1 then 2147483646 else 3) ⟨1, by omega⟩ =
      (2147483646 + 2147483646) % m31P ∧
    avxAdd (fun i => if i.1 = 0 then 0 else if i.1 = 1 then 2147483646 else 5)
        (fun i => if i.1 = 1 then 2147483646 else 3) ⟨1, by omega⟩ < m31P ∧
    avxSub (fun i => if i.1 = 0 then 0 else if i.1 = 1 then 2147483646 else 5)
        (fun i => if i.1 = 1 then 2147483646 else 3) ⟨1, by omega⟩ =
      (2147483646 + (m31P - 2147483646)) % m31P ∧
    avxSub (fun i => if i.1 = 0 then 0 else if i.1 = 1 then 2147483646 else 5)
        (fun i => if i.1 = 1 then 2147483646 else 3) ⟨1, by omega⟩ < m31P ∧
    avxMul (fun i => if i.1 = 0 then 0 else if i.1 = 1 then 2147483646 else 5)
        (fun i => if i.1 = 1 then 2147483646 else 3) ⟨1, by omega⟩ =
      2147483646 * 2147483646 % m31P ∧
    avxMul (fun i => if i.1 = 0 then 0 else if i.1 = 1 then 2147483646 else 5)
        (fun i => if i.1 = 1 then 2147483646 else 3) ⟨1, by omega⟩ < m31P ∧
    avxNeg (fun i => if i.1 = 0 then 0 else if i.1 = 1 then 2147483646 else 5)
        ⟨1, by omega⟩ = (m31P - 2147483646) % m31P ∧
    avxNeg (fun i => if i.1 = 0 then 0 else if i.1 = 1 then 2147483646 else 5)
        ⟨1, by omega⟩ < m31P :=
  avx_m31_lanewise
    (fun i => if i.1 = 0 then 0 else if i.1 = 1 then 2147483646 else 5)
    (fun i => if i.1 = 1 then 2147483646 else 3)
    (by decide) (by decide) ⟨1, by omega⟩

/-- C5, the claim as stated is false on `AVXM31`: the vector with lane 0
equal to `1` and all other lanes `0` differs from the all-zero vector, yet
`inv` returns `None` (so `x * inv(x).unwrap() == 1` fails for a nonzero
vector). -/
theorem avxInv_claim_counterexample :
    ¬ ((fun i : Fin 8 => if i.1 = 0 then 1 else 0) ≠ avxZero →
      ∃ y, avxInv (fun i : Fin 8 => if i.1 = 0 then 1 else 0) = some y ∧
        avxMul (fun i : Fin 8 => if i.1 = 0 then 1 else 0) y = avxOne) := by
  intro hcl
  obtain ⟨y, hy, _⟩ := hcl (fun heq => by
    have h0 := congrFun heq ⟨0, by omega⟩
    simp [avxZero, packFull] at h0)
  rw [show avxInv (fun i : Fin 8 => if i.1 = 0 then 1 else 0) = none from by
    rw [avxInv, if_neg (by decide)]] at hy
  exact Option.noConfusion hy
/-- C5 (amended): on canonical vectors, `AVXM31::inv` returns `None` iff
some lane is zero — i.e. iff the vector is zero or a non-unit of the
lane-wise product ring — and for every vector all of whose lanes are
nonzero, `x * x.inv().unwrap() == 1`. -/
theorem avxInv_correct (x : M31Vec) (hx : ∀ i, x i < m31P) :
    (avxInv x = none ↔ ∃ i, x i = 0) ∧
    ((∀ i, x i ≠ 0) → ∃ y, avxInv x = some y ∧ avxMul x y = avxOne) := by
  have hze : ∀ i, m31IsZero (x i) = false ↔ x i ≠ 0 := by
    intro i
    rw [m31IsZero, Nat.mod_eq_of_lt (hx i)]
    simp
  constructor
  · rw [avxInv]
    by_cases hall : ∀ i, m31IsZero (x i) = false
    · rw [if_pos hall]
      simp only [reduceCtorEq, false_iff, not_exists]
      intro i hzero
      exact ((hze i).mp (hall i)) hzero
    · rw [if_neg hall]
      simp only [true_iff]
      push_neg at hall
      obtain ⟨i, hi⟩ := hall
      refine ⟨i, ?_⟩
      by_contra hne
      exact hi ((hze i).mpr hne)
  · intro hnz
    have hall : ∀ i, m31IsZero (x i) = false := fun i => (hze i).mpr (hnz i)
    refine ⟨_, by rw [avxInv, if_pos hall], ?_⟩
    have hyv : ∀ i, (m31Inv (x i)).getD 0 = ((x i : ZMod m31P)⁻¹).val := by
      intro i
      rw [m31Inv, if_neg (by rw [Nat.mod_eq_of_lt (hx i)]; exact hnz i)]
      rfl
    have hy : ∀ i, (fun i => (m31Inv (x i)).getD 0) i < m31P := by
      intro i
      simp only [hyv]
      exact ZMod.val_lt _
    funext i
    rw [avxMul_lane x _ hx hy i]
    simp only [hyv]
    have hcast : ((x i : ℕ) : ZMod m31P) ≠ 0 := by
      rw [Ne, ZMod.natCast_zmod_eq_zero_iff_dvd]
      intro hdvd
      have := Nat.le_of_dvd (Nat.pos_of_ne_zero (hnz i)) hdvd
      have := hx i
      omega
    have hinv : (x i : ZMod m31P) * (x i : ZMod m31P)⁻¹ = 1 := mul_inv_cancel₀ hcast
    have hval : x i * ((x i : ZMod m31P)⁻¹).val % m31P =
        (((x i * ((x i : ZMod m31P)⁻¹).val : ℕ)) : ZMod m31P).val := by
      rw [ZMod.val_natCast]
    rw [hval]
    push_cast
    rw [ZMod.natCast_val, ZMod.cast_id, hinv]
    rw [ZMod.val_one]
    rfl

/-- Witness for C5: the broadcast vector of `2`s is invertible and
multiplied by its inverse gives the all-ones vector. -/
theorem avxInv_correct_witness :
    ∃ y, avxInv (fun _ => 2) = some y ∧ avxMul (fun _ => 2) y = avxOne :=
  (avxInv_correct (fun _ => 2) (by decide)).2 (by decide)

/-- Helper: `readU64List n` returns exactly `n` values on success. -/
theorem readU64List_length (n : ℕ) (bs : List ℕ) (vs : List ℕ) (rest : List ℕ)
    (h : readU64List n bs = some (vs, rest)) : vs.length = n := by
  induction n generalizing bs vs rest with
  | zero => simp [readU64List] at h; simp [h.1]
  | succ m ih =>
    simp only [readU64List, Option.bind_eq_bind, Option.bind_eq_some, Option.map_eq_some'] at h
    obtain ⟨a, h1, b, h2, h3⟩ := h
    have hlen := ih a.2 b.1 b.2 h2
    rw [Prod.mk.injEq] at h3
    rw [← h3.1]
    simp [hlen]

/-- Helper: a custom-gate record whose decoded `in_count` is zero is fatal
(`inputs[0]` is out of bounds), whatever follows in the stream. -/
theorem readCustomGate_zero (bs r1 r2 : List ℕ) (gtv : ℕ)
    (h1 : readU64 bs = some (gtv, r1)) (h2 : readU64 r1 = some (0, r2)) :
    readCustomGate bs = none := by
  simp only [readCustomGate, Option.bind_eq_bind, h1, Option.some_bind, h2]
  have h3 : readU64List 0 r2 = some ([], r2) := rfl
  rw [h3]
  simp only [Option.some_bind]
  cases h4 : readU64 r2 with
  | none => rfl
  | some o =>
    simp only [Option.some_bind]
    cases h5 : readCoefTy o.2 with
    | none => rfl
    | some ct =>
      simp only [Option.some_bind]
      cases h6 : readCoefVal ct.1 ct.2 with
      | none => rfl
      | some cv => simp only [Option.some_bind]

/-- Helper: a successfully parsed custom-gate record decoded a positive
`in_count`. -/
theorem readCustomGate_some (bs : List ℕ) (g : GateUni M31Vec) (rest : List ℕ)
    (h : readCustomGate bs = some (g, rest)) :
    ∃ gtv r1 n r2, readU64 bs = some (gtv, r1) ∧ readU64 r1 = some (n, r2) ∧ 1 ≤ n := by
  simp only [readCustomGate, Option.bind_eq_bind, Option.bind_eq_some] at h
  obtain ⟨gt, hgt, inLen, hinLen, inputs, hinputs, out, hout, ct, hct, cv, hcv, hmatch⟩ := h
  refine ⟨gt.1, gt.2, inLen.1, inLen.2, ?_, ?_, ?_⟩
  · rw [← hgt]
  · rw [← hinLen]
  · rcases hin : inputs.1 with _ | ⟨i0, tl⟩
    · rw [hin] at hmatch
      simp at hmatch
    · have := readU64List_length inLen.1 inLen.2 inputs.1 inputs.2 hinputs
      rw [hin] at this
      simp at this
      omega

/-- Helper: a successful run of the custom-gate loop parsed only records
with positive `in_count`. -/
theorem readCount_customRecordsOK (n : ℕ) (bs : List ℕ)
    (gs : List (GateUni M31Vec)) (rest : List ℕ)
    (h : readCount readCustomGate n bs = some (gs, rest)) :
    customRecordsOK n bs := by
  induction n generalizing bs gs rest with
  | zero => trivial
  | succ m ih =>
    simp only [readCount, Option.bind_eq_bind, Option.bind_eq_some, Option.map_eq_some'] at h
    obtain ⟨a, h1, b, h2, _⟩ := h
    obtain ⟨gtv, r1, nv, r2, hu1, hu2, hn⟩ :=
      readCustomGate_some bs a.1 a.2 (by rw [← h1])
    exact ⟨a.1, a.2, gtv, r1, nv, r2, by rw [← h1], hu1, hu2, hn, ih a.2 b.1 b.2 h2⟩

/-- Helper: inversion of an `Option` bind. -/
theorem bind_some_inv {α β : Type} (x : Option α) (f : α → Option β) (b : β)
    (h : x >>= f = some b) : ∃ a, x = some a ∧ f a = some b :=
  Option.bind_eq_some.mp h

/-- Helper: a successful `Segment::read` parsed its custom-gate section with
every record's `in_count` positive. -/
theorem segment_read_customRecordsOK (bs : List ℕ) (seg : Segment M31Vec) (rest : List ℕ)
    (h : Segment.read bs = some (seg, rest)) :
    ∃ n bsC, readCount readCustomGate n bsC = some (seg.gateUnis, rest) ∧
      customRecordsOK n bsC := by
  unfold Segment.read at h
  obtain ⟨iLen, hiLen, h⟩ := bind_some_inv _ _ _ h
  try dsimp only at h
  obtain ⟨oLen, hoLen, h⟩ := bind_some_inv _ _ _ h
  try dsimp only at h
  split_ifs at h with hcond
  obtain ⟨csn, hcsn, h⟩ := bind_some_inv _ _ _ h
  try dsimp only at h
  obtain ⟨children, hch, h⟩ := bind_some_inv _ _ _ h
  try dsimp only at h
  obtain ⟨mn, hmn, h⟩ := bind_some_inv _ _ _ h
  try dsimp only at h
  obtain ⟨muls, hmuls, h⟩ := bind_some_inv _ _ _ h
  try dsimp only at h
  obtain ⟨an, han, h⟩ := bind_some_inv _ _ _ h
  try dsimp only at h
  obtain ⟨adds, hadds, h⟩ := bind_some_inv _ _ _ h
  try dsimp only at h
  obtain ⟨cn, hcn, h⟩ := bind_some_inv _ _ _ h
  try dsimp only at h
  obtain ⟨csts, hcsts, h⟩ := bind_some_inv _ _ _ h
  try dsimp only at h
  obtain ⟨un, hun, h⟩ := bind_some_inv _ _ _ h
  try dsimp only at h
  obtain ⟨unis, hunis, h⟩ := bind_some_inv _ _ _ h
  try dsimp only at h
  rw [Option.some_inj, Prod.mk.injEq] at h
  refine ⟨un.1, un.2, ?_,
    readCount_customRecordsOK un.1 un.2 unis.1 unis.2 (by rw [← hunis])⟩
  rw [← h.1, ← h.2, ← hunis]

/-- C10: `Segment::read` is fatal on every byte stream whose custom-gate
section reaches a record with `in_count = 0` (the record reader returns
`none` there, since building the `GateUni` indexes `inputs[0]` out of
bounds), and it returns normally only when every custom-gate record it
parses decodes an `in_count ≥ 1`. -/
theorem segment_read_custom_in_count (bs r1 r2 rest bsSeg restSeg : List ℕ) (gtv : ℕ)
    (g : GateUni M31Vec) (seg : Segment M31Vec) :
    (readU64 bs = some (gtv, r1) → readU64 r1 = some (0, r2) →
      readCustomGate bs = none) ∧
    (readCustomGate bs = some (g, rest) →
      ∃ gtv2 s1 n s2, readU64 bs = some (gtv2, s1) ∧ readU64 s1 = some (n, s2) ∧ 1 ≤ n) ∧
    (Segment.read bsSeg = some (seg, restSeg) →
      ∃ n bsC, readCount readCustomGate n bsC = some (seg.gateUnis, restSeg) ∧
        customRecordsOK n bsC) :=
  ⟨fun h1 h2 => readCustomGate_zero bs r1 r2 gtv h1 h2,
   fun h => readCustomGate_some bs g rest h,
   fun h => segment_read_customRecordsOK bsSeg seg restSeg h⟩

/-- Witness for C10: the concrete record `gate_type = 7`, `in_count = 0` is
fatal. -/
theorem segment_read_custom_in_count_witness :
    readCustomGate [7, 0, 0, 0, 0, 0, 0, 0, 0, 0, 0, 0, 0, 0, 0, 0] = none :=
  (segment_read_custom_in_count
      [7, 0, 0, 0, 0, 0, 0, 0, 0, 0, 0, 0, 0, 0, 0, 0]
      [0, 0, 0, 0, 0, 0, 0, 0] [] [] [] [] 7
      ⟨0, 0, packFull 0, CoefTy.constant, 0⟩ emptySeg).1
    (by decide) (by decide)

/-- Reading `n` bytes yields the first `n` bytes and drops them from the
stream. -/
theorem readBytes_spec (n : ℕ) : ∀ (bs l r : List ℕ), readBytes n bs = some (l, r) →
    l.length = n ∧ l = bs.take n ∧ r = bs.drop n := by
  induction n with
  | zero =>
    intro bs l r h
    simp only [readBytes, Option.some.injEq, Prod.mk.injEq] at h
    obtain ⟨rfl, rfl⟩ := h
    simp
  | succ n ih =>
    intro bs l r h
    match bs with
    | [] => simp [readBytes] at h
    | b :: bs2 =>
      simp only [readBytes] at h
      obtain ⟨vr, hvr, heq⟩ := Option.map_eq_some'.mp h
      obtain ⟨l2, r2⟩ := vr
      simp only [Option.some.injEq, Prod.mk.injEq] at heq
      obtain ⟨rfl, rfl⟩ := heq
      obtain ⟨h1, h2, h3⟩ := ih bs2 l2 r2 hvr
      refine ⟨by simpa using h1, ?_, ?_⟩
      · rw [List.take_succ_cons, ← h2]
      · rw [List.drop_succ_cons]
        exact h3

/-- A successful ECC-format field read consumes exactly 32 bytes. -/
theorem m31ReadEcc_rest (bs : List ℕ) (v : ℕ) (r : List ℕ)
    (h : m31ReadEcc bs = some (v, r)) : r = bs.drop 32 := by
  unfold m31ReadEcc at h
  obtain ⟨vr, hvr, h2⟩ := bind_some_inv _ _ _ h
  obtain ⟨l2, r2⟩ := vr
  obtain ⟨h1, hl, hr⟩ := readBytes_spec 32 bs l2 r2 hvr
  by_cases hz : (l2.drop 4).all (fun x => x = 0)
  · rw [if_pos hz] at h2
    simp only [Option.some.injEq, Prod.mk.injEq] at h2
    exact h2.2 ▸ hr
  · rw [if_neg hz] at h2
    exact absurd h2 (by simp)

/-- A row read of `n` field elements consumes `32 * n` bytes, and element `j`
is decoded at stream offset `32 * j`. -/
theorem readRow_spec (n : ℕ) : ∀ (bs vs r : List ℕ), readRow n bs = some (vs, r) →
    vs.length = n ∧ r = bs.drop (32 * n) ∧
    ∀ j, j < n → ∃ r2, m31ReadEcc (bs.drop (32 * j)) = some (vs.getD j 0, r2) := by
  induction n with
  | zero =>
    intro bs vs r h
    simp only [readRow, Option.some.injEq, Prod.mk.injEq] at h
    obtain ⟨rfl, rfl⟩ := h
    exact ⟨rfl, by simp, fun j hj => absurd hj (by omega)⟩
  | succ n ih =>
    intro bs vs r h
    simp only [readRow] at h
    obtain ⟨vr, hvr, h2⟩ := bind_some_inv _ _ _ h
    obtain ⟨v0, rest0⟩ := vr
    obtain ⟨wr, hwr, heq⟩ := Option.map_eq_some'.mp h2
    obtain ⟨ws, r2⟩ := wr
    simp only [Option.some.injEq, Prod.mk.injEq] at heq
    obtain ⟨rfl, rfl⟩ := heq
    have hrest : rest0 = bs.drop 32 := m31ReadEcc_rest bs v0 rest0 hvr
    obtain ⟨h1, hdrop, hpos⟩ := ih rest0 ws r2 hwr
    refine ⟨by simp [h1], ?_, ?_⟩
    · rw [hdrop, hrest, List.drop_drop]
      congr 1
      omega
    · intro j hj
      match j with
      | 0 => exact ⟨rest0, by simpa using hvr⟩
      | j + 1 =>
        obtain ⟨r3, hr3⟩ := hpos j (by omega)
        refine ⟨r3, ?_⟩
        have hidx : bs.drop (32 * (j + 1)) = rest0.drop (32 * j) := by
          rw [hrest, List.drop_drop]
          congr 1
          omega
        rw [hidx, List.getD_cons_succ]
        exact hr3

/-- The witness-reading loop consumes `32 * (nin + npub) * m` bytes for `m`
witnesses; witness `i` has `nin` private and `npub` public elements, decoded
at their block offsets. -/
theorem readWitnessRows_spec (m : ℕ) : ∀ (nin npub : ℕ) (bs : List ℕ)
    (rows : List (List ℕ × List ℕ)) (r : List ℕ),
    readWitnessRows m nin npub bs = some (rows, r) →
    rows.length = m ∧ r = bs.drop (32 * ((nin + npub) * m)) ∧
    ∀ i, i < m →
      (rows.getD i (List.replicate nin 0, List.replicate npub 0)).1.length = nin ∧
      (rows.getD i (List.replicate nin 0, List.replicate npub 0)).2.length = npub ∧
      (∀ j, j < nin → ∃ r2, m31ReadEcc (bs.drop (32 * ((nin + npub) * i + j))) =
        some ((rows.getD i (List.replicate nin 0, List.replicate npub 0)).1.getD j 0, r2)) ∧
      (∀ j, j < npub → ∃ r2, m31ReadEcc (bs.drop (32 * ((nin + npub) * i + nin + j))) =
        some ((rows.getD i (List.replicate nin 0, List.replicate npub 0)).2.getD j 0, r2)) := by
  induction m with
  | zero =>
    intro nin npub bs rows r h
    simp only [readWitnessRows, Option.some.injEq, Prod.mk.injEq] at h
    obtain ⟨rfl, rfl⟩ := h
    exact ⟨rfl, by simp, fun i hi => absurd hi (by omega)⟩
  | succ m ih =>
    intro nin npub bs rows r h
    simp only [readWitnessRows] at h
    obtain ⟨pr, hpr, h2⟩ := bind_some_inv _ _ _ h
    obtain ⟨pu, hpu, h3⟩ := bind_some_inv _ _ _ h2
    obtain ⟨rest, hrest, h4⟩ := bind_some_inv _ _ _ h3
    simp only [Option.some.injEq, Prod.mk.injEq] at h4
    obtain ⟨rfl, rfl⟩ := h4
    obtain ⟨hprl, hprd, hprp⟩ := readRow_spec nin bs pr.1 pr.2 (by simpa using hpr)
    obtain ⟨hpul, hpud, hpup⟩ := readRow_spec npub pr.2 pu.1 pu.2 (by simpa using hpu)
    obtain ⟨hrl, hrd, hrp⟩ := ih nin npub pu.2 rest.1 rest.2 (by simpa using hrest)
    have hpu2 : pu.2 = bs.drop (32 * (nin + npub)) := by
      rw [hpud, hprd, List.drop_drop]
      congr 1
      ring
    refine ⟨by simp [hrl], ?_, ?_⟩
    · rw [hrd, hpu2, List.drop_drop]
      congr 1
      have hexp : (nin + npub) * (m + 1) = (nin + npub) * m + (nin + npub) := by ring
      rw [hexp]
      ring
    · intro i hi
      match i with
      | 0 =>
        refine ⟨by simpa using hprl, by simpa using hpul, ?_, ?_⟩
        · intro j hj
          obtain ⟨r2, hr2⟩ := hprp j hj
          refine ⟨r2, ?_⟩
          have hidx : (nin + npub) * 0 + j = j := by ring
          rw [hidx]
          simpa using hr2
        · intro j hj
          obtain ⟨r2, hr2⟩ := hpup j hj
          refine ⟨r2, ?_⟩
          have hidx : bs.drop (32 * ((nin + npub) * 0 + nin + j)) = pr.2.drop (32 * j) := by
            rw [hprd, List.drop_drop]
            congr 1
            ring
          rw [hidx]
          simpa using hr2
      | i + 1 =>
        obtain ⟨ha, hb, hc, hd⟩ := hrp i (by omega)
        have hdef : ((pr.1, pu.1) :: rest.1).getD (i + 1)
            (List.replicate nin 0, List.replicate npub 0) =
            rest.1.getD i (List.replicate nin 0, List.replicate npub 0) := List.getD_cons_succ
        rw [hdef]
        refine ⟨ha, hb, ?_, ?_⟩
        · intro j hj
          obtain ⟨r2, hr2⟩ := hc j hj
          refine ⟨r2, ?_⟩
          have hidx : bs.drop (32 * ((nin + npub) * (i + 1) + j)) =
              pu.2.drop (32 * ((nin + npub) * i + j)) := by
            rw [hpu2, List.drop_drop]
            congr 1
            ring
          rw [hidx]
          exact hr2
        · intro j hj
          obtain ⟨r2, hr2⟩ := hd j hj
          refine ⟨r2, ?_⟩
          have hidx : bs.drop (32 * ((nin + npub) * (i + 1) + nin + j)) =
              pu.2.drop (32 * ((nin + npub) * i + nin + j)) := by
            rw [hpu2, List.drop_drop]
            congr 1
            ring
          rw [hidx]
          exact hr2

/-- Inversion for `List.mapM` over `Option`. -/
theorem mapM_forall2 {α β : Type} (f : α → Option β) :
    ∀ (l : List α) (l2 : List β), l.mapM f = some l2 →
    List.Forall₂ (fun a b => f a = some b) l l2 := by
  intro l
  induction l with
  | nil =>
    intro l2 h
    simp only [List.mapM_nil, pure, Option.some.injEq] at h
    rw [← h]
    exact List.Forall₂.nil
  | cons a t ih =>
    intro l2 h
    rw [List.mapM_cons] at h
    obtain ⟨b, hb, h2⟩ := bind_some_inv _ _ _ h
    obtain ⟨bs, hbs, h3⟩ := bind_some_inv _ _ _ h2
    simp only [pure, Option.some.injEq] at h3
    rw [← h3]
    exact List.Forall₂.cons hb (ih bs hbs)

/-- Pointwise `getD` consequence of `List.Forall₂`, given that the defaults
are related. -/
theorem forall2_getD {α β : Type} (R : α → β → Prop) (l : List α) (l2 : List β)
    (h : List.Forall₂ R l l2) (d : α) (d2 : β) (hR : R d d2) (i : ℕ) :
    R (l.getD i d) (l2.getD i d2) := by
  induction h generalizing i with
  | nil => simpa using hR
  | cons hab htail ih =>
    match i with
    | 0 => simpa using hab
    | i + 1 =>
      rw [List.getD_cons_succ, List.getD_cons_succ]
      exact ih i

/-- `getD` through `List.map` at an in-range index. -/
theorem getD_map_lt {α β : Type} (f : α → β) (l : List α) (li : ℕ) (h : li < l.length)
    (d : β) (d2 : α) : (l.map f).getD li d = f (l.getD li d2) := by
  rw [List.getD_eq_getElem _ _ (by simpa using h), List.getD_eq_getElem _ _ h,
    List.getElem_map]

/-- `vec_2d_to_vec_simd` produces one packed entry per column of row 0. -/
theorem vec2dToVecSimd_length (v2d : List (List ℕ)) :
    (vec2dToVecSimd v2d).length = (v2d.getD 0 []).length := by
  simp [vec2dToVecSimd]

/-- Entry `idx`, lane `lane` of `vec_2d_to_vec_simd` is `vec2d[lane][idx]`. -/
theorem vec2dToVecSimd_getD (v2d : List (List ℕ)) (idx : ℕ)
    (h : idx < (v2d.getD 0 []).length) (d : M31Vec) (lane : Fin 8) :
    (vec2dToVecSimd v2d).getD idx d lane = (v2d.getD lane.1 []).getD idx 0 := by
  unfold vec2dToVecSimd
  rw [getD_map_lt _ _ idx (by simpa using h) d 0]
  have hr : (List.range (v2d.getD 0 []).length).getD idx 0 = idx := by
    rw [List.getD_eq_getElem _ _ (by simpa using h), List.getElem_range]
  rw [hr]
  show ((List.range 8).map (fun j => (v2d.getD j []).getD idx 0)).getD lane.1 0 =
    (v2d.getD lane.1 []).getD idx 0
  rw [getD_map_lt _ _ lane.1 (by simpa using lane.2) 0 0]
  have : (List.range 8).getD lane.1 0 = lane.1 := by
    rw [List.getD_eq_getElem _ _ (by simpa using lane.2), List.getElem_range]
  rw [this]

/-- A successful single-slot fill leaves non-public coefficients unchanged
and replaces a `PublicInput idx` coefficient with `public_inputs[idx]`,
which must be in range. -/
theorem fillPubCoef_inv {V : Type} (pubs : List V) (ct : CoefTy) (coef cf : V)
    (h : fillPubCoef pubs ct coef = some cf) :
    (∀ idx, ct = CoefTy.publicInput idx → idx < pubs.length ∧ cf = pubs.getD idx coef) ∧
    (ct = CoefTy.constant ∨ ct = CoefTy.random → cf = coef) := by
  constructor
  · intro idx hct
    subst hct
    have h2 : (if hlt : idx < pubs.length then some (pubs.get ⟨idx, hlt⟩) else none)
        = some cf := h
    by_cases hlt : idx < pubs.length
    · rw [dif_pos hlt] at h2
      simp only [Option.some.injEq] at h2
      exact ⟨hlt, by rw [← h2, List.getD_eq_getElem _ _ hlt]; rfl⟩
    · rw [dif_neg hlt] at h2
      exact absurd h2 (by simp)
  · intro hct
    rcases hct with hct | hct <;> subst hct <;>
      simpa using (show some coef = some cf from h).symm

/-- Inversion of the per-layer block of `fill_pub_coefs`: each gate list is
`Forall₂`-related to its filled version. -/
theorem fill_layer_inv {V : Type} (pubs : List V) (l l2 : CircuitLayer V)
    (h : (do
        let muls ← l.mul.mapM (fun g =>
          (fillPubCoef pubs g.coefType g.coef).map (fun cf => { g with coef := cf }))
        let adds ← l.add.mapM (fun g =>
          (fillPubCoef pubs g.coefType g.coef).map (fun cf => { g with coef := cf }))
        let csts ← l.const.mapM (fun g =>
          (fillPubCoef pubs g.coefType g.coef).map (fun cf => { g with coef := cf }))
        let unis ← l.uni.mapM (fun g =>
          (fillPubCoef pubs g.coefType g.coef).map (fun cf => { g with coef := cf }))
        some { l with mul := muls, add := adds, const := csts, uni := unis }) = some l2) :
    List.Forall₂ (fun g g2 : GateMul V =>
        (fillPubCoef pubs g.coefType g.coef).map (fun cf => { g with coef := cf }) = some g2)
      l.mul l2.mul ∧
    List.Forall₂ (fun g g2 : GateAdd V =>
        (fillPubCoef pubs g.coefType g.coef).map (fun cf => { g with coef := cf }) = some g2)
      l.add l2.add ∧
    List.Forall₂ (fun g g2 : GateCst V =>
        (fillPubCoef pubs g.coefType g.coef).map (fun cf => { g with coef := cf }) = some g2)
      l.const l2.const ∧
    List.Forall₂ (fun g g2 : GateUni V =>
        (fillPubCoef pubs g.coefType g.coef).map (fun cf => { g with coef := cf }) = some g2)
      l.uni l2.uni := by
  obtain ⟨muls, hm, h⟩ := bind_some_inv _ _ _ h
  obtain ⟨adds, ha, h⟩ := bind_some_inv _ _ _ h
  obtain ⟨csts, hc, h⟩ := bind_some_inv _ _ _ h
  obtain ⟨unis, hu, h⟩ := bind_some_inv _ _ _ h
  simp only [Option.some.injEq] at h
  rw [← h]
  exact ⟨mapM_forall2 _ _ _ hm, mapM_forall2 _ _ _ ha,
    mapM_forall2 _ _ _ hc, mapM_forall2 _ _ _ hu⟩

/-- `Circuit::fill_pub_coefs` relates every gate of every layer to its filled
version, preserving layer count. -/
theorem fill_pub_coefs_spec {V : Type} (c : Circuit V) (pubs : List V) (c1 : Circuit V)
    (h : fill_pub_coefs c pubs = some c1) :
    c1.layers.length = c.layers.length ∧
    ∀ li : ℕ,
      List.Forall₂ (fun g g2 : GateMul V =>
          (fillPubCoef pubs g.coefType g.coef).map (fun cf => { g with coef := cf }) = some g2)
        (c.layers.getD li emptyLayer).mul (c1.layers.getD li emptyLayer).mul ∧
      List.Forall₂ (fun g g2 : GateAdd V =>
          (fillPubCoef pubs g.coefType g.coef).map (fun cf => { g with coef := cf }) = some g2)
        (c.layers.getD li emptyLayer).add (c1.layers.getD li emptyLayer).add ∧
      List.Forall₂ (fun g g2 : GateCst V =>
          (fillPubCoef pubs g.coefType g.coef).map (fun cf => { g with coef := cf }) = some g2)
        (c.layers.getD li emptyLayer).const (c1.layers.getD li emptyLayer).const ∧
      List.Forall₂ (fun g g2 : GateUni V =>
          (fillPubCoef pubs g.coefType g.coef).map (fun cf => { g with coef := cf }) = some g2)
        (c.layers.getD li emptyLayer).uni (c1.layers.getD li emptyLayer).uni := by
  unfold fill_pub_coefs at h
  obtain ⟨layers1, hl, h⟩ := bind_some_inv _ _ _ h
  simp only [Option.some.injEq] at h
  have hf2 := mapM_forall2 _ _ _ hl
  have hS := List.Forall₂.imp (fun l l2 hh => fill_layer_inv pubs l l2 hh) hf2
  rw [← h]
  refine ⟨hS.length_eq.symm, fun li => ?_⟩
  exact forall2_getD _ _ _ hS emptyLayer emptyLayer
    ⟨List.Forall₂.nil, List.Forall₂.nil, List.Forall₂.nil, List.Forall₂.nil⟩ li

/-- C8: `load_witness_bytes` reads exactly `min(num_witnesses, SIMD_SIZE)`
witnesses from the byte stream (the remainder is the stream past the header
plus `32 * (nin + npub) * min(nw, 8)` bytes, and each witness element is
decoded at its block offset); afterwards `layers[0].input_vals[j]` packs in
lane `i` the `j`-th private input of witness `i` for `i < min(nw, 8)` and
zero in every remaining lane; and every gate coefficient whose type is
`PublicInput(idx)` is overwritten with the SIMD packing of the witnesses'
`idx`-th public inputs (zero in lanes beyond the witnesses read), all other
gate fields and coefficients unchanged. -/
theorem load_witness_bytes_spec (c c2 : Circuit M31Vec) (bytes rest : List ℕ)
    (h : load_witness_bytes c bytes = some (c2, rest)) :
    ∃ (nw nin npub : ℕ) (r1 r2 r3 fm body : List ℕ) (rows : List (List ℕ × List ℕ)),
      readU64 bytes = some (nw, r1) ∧
      readU64 r1 = some (nin, r2) ∧
      readU64 r2 = some (npub, r3) ∧
      readBytes 32 r3 = some (fm, body) ∧
      readWitnessRows (min nw 8) nin npub body = some (rows, rest) ∧
      rows.length = min nw 8 ∧
      rest = body.drop (32 * ((nin + npub) * min nw 8)) ∧
      (∀ i, i < min nw 8 → ∀ j, j < nin →
        ∃ rr, m31ReadEcc (body.drop (32 * ((nin + npub) * i + j)))
          = some (witPriv nin npub rows i j, rr)) ∧
      (∀ i, i < min nw 8 → ∀ j, j < npub →
        ∃ rr, m31ReadEcc (body.drop (32 * ((nin + npub) * i + nin + j)))
          = some (witPub nin npub rows i j, rr)) ∧
      (c2.layers.getD 0 emptyLayer).inputVals.length = nin ∧
      (∀ j, j < nin → ∀ lane : Fin 8,
        (c2.layers.getD 0 emptyLayer).inputVals.getD j (packFull 0) lane
          = if lane.1 < min nw 8 then witPriv nin npub rows lane.1 j else 0) ∧
      c2.layers.length = c.layers.length ∧
      (∀ li : ℕ,
        List.Forall₂ (fun g g2 : GateMul M31Vec =>
            g2.i0 = g.i0 ∧ g2.i1 = g.i1 ∧ g2.o = g.o ∧ g2.coefType = g.coefType ∧
            g2.gateType = g.gateType ∧
            (∀ idx, g.coefType = CoefTy.publicInput idx → idx < npub ∧
              ∀ lane : Fin 8, g2.coef lane =
                if lane.1 < min nw 8 then witPub nin npub rows lane.1 idx else 0) ∧
            (g.coefType = CoefTy.constant ∨ g.coefType = CoefTy.random →
              g2.coef = g.coef))
          (c.layers.getD li emptyLayer).mul (c2.layers.getD li emptyLayer).mul ∧
        List.Forall₂ (fun g g2 : GateAdd M31Vec =>
            g2.i0 = g.i0 ∧ g2.o = g.o ∧ g2.coefType = g.coefType ∧
            g2.gateType = g.gateType ∧
            (∀ idx, g.coefType = CoefTy.publicInput idx → idx < npub ∧
              ∀ lane : Fin 8, g2.coef lane =
                if lane.1 < min nw 8 then witPub nin npub rows lane.1 idx else 0) ∧
            (g.coefType = CoefTy.constant ∨ g.coefType = CoefTy.random →
              g2.coef = g.coef))
          (c.layers.getD li emptyLayer).add (c2.layers.getD li emptyLayer).add ∧
        List.Forall₂ (fun g g2 : GateCst M31Vec =>
            g2.o = g.o ∧ g2.coefType = g.coefType ∧ g2.gateType = g.gateType ∧
            (∀ idx, g.coefType = CoefTy.publicInput idx → idx < npub ∧
              ∀ lane : Fin 8, g2.coef lane =
                if lane.1 < min nw 8 then witPub nin npub rows lane.1 idx else 0) ∧
            (g.coefType = CoefTy.constant ∨ g.coefType = CoefTy.random →
              g2.coef = g.coef))
          (c.layers.getD li emptyLayer).const (c2.layers.getD li emptyLayer).const ∧
        List.Forall₂ (fun g g2 : GateUni M31Vec =>
            g2.i0 = g.i0 ∧ g2.o = g.o ∧ g2.coefType = g.coefType ∧
            g2.gateType = g.gateType ∧
            (∀ idx, g.coefType = CoefTy.publicInput idx → idx < npub ∧
              ∀ lane : Fin 8, g2.coef lane =
                if lane.1 < min nw 8 then witPub nin npub rows lane.1 idx else 0) ∧
            (g.coefType = CoefTy.constant ∨ g.coefType = CoefTy.random →
              g2.coef = g.coef))
          (c.layers.getD li emptyLayer).uni (c2.layers.getD li emptyLayer).uni) := by
  unfold load_witness_bytes at h
  obtain ⟨h1, hh1, h⟩ := bind_some_inv _ _ _ h
  try dsimp only at h
  obtain ⟨h2p, hh2, h⟩ := bind_some_inv _ _ _ h
  try dsimp only at h
  obtain ⟨h3p, hh3, h⟩ := bind_some_inv _ _ _ h
  try dsimp only at h
  obtain ⟨hm, hhm, h⟩ := bind_some_inv _ _ _ h
  try dsimp only at h
  obtain ⟨rows0, hrows, h⟩ := bind_some_inv _ _ _ h
  try dsimp only at h
  obtain ⟨c1, hc1, h⟩ := bind_some_inv _ _ _ h
  try dsimp only at h
  obtain ⟨nw, r1⟩ := h1
  obtain ⟨nin, r2⟩ := h2p
  obtain ⟨npub, r3⟩ := h3p
  obtain ⟨fm, body⟩ := hm
  obtain ⟨rowsL, rowsR⟩ := rows0
  dsimp only at hh2 hh3 hhm hrows hc1 h
  cases hcl : c1.layers with
  | nil =>
    rw [hcl] at h
    exact absurd h (by simp)
  | cons l0 tl =>
    rw [hcl] at h
    simp only [Option.some.injEq, Prod.mk.injEq] at h
    obtain ⟨hc2, hrest⟩ := h
    subst hc2
    subst hrest
    obtain ⟨hrl, hrd, hrfacts⟩ := readWitnessRows_spec (min nw 8) nin npub body rowsL rowsR hrows
    obtain ⟨hfl, hfall⟩ := fill_pub_coefs_spec c _ c1 hc1
    have hrow0 : ∀ i : ℕ,
        (rowsL.getD i (List.replicate nin 0, List.replicate npub 0)).1.length = nin := by
      intro i
      by_cases hi : i < min nw 8
      · exact (hrfacts i hi).1
      · rw [List.getD_eq_default _ _ (by omega)]
        exact List.length_replicate nin 0
    have hrow0p : ∀ i : ℕ,
        (rowsL.getD i (List.replicate nin 0, List.replicate npub 0)).2.length = npub := by
      intro i
      by_cases hi : i < min nw 8
      · exact (hrfacts i hi).2.1
      · rw [List.getD_eq_default _ _ (by omega)]
        exact List.length_replicate npub 0
    have hprivD : ∀ lane : Fin 8,
        (List.map (fun i => (rowsL.getD i (List.replicate nin 0, List.replicate npub 0)).1)
          (List.range 8)).getD lane.1 []
        = (rowsL.getD lane.1 (List.replicate nin 0, List.replicate npub 0)).1 := by
      intro lane
      rw [getD_map_lt _ _ lane.1 (by simpa using lane.2) [] 0]
      congr 2
      rw [List.getD_eq_getElem _ _ (by simpa using lane.2), List.getElem_range]
    have hpubD : ∀ lane : Fin 8,
        (List.map (fun i => (rowsL.getD i (List.replicate nin 0, List.replicate npub 0)).2)
          (List.range 8)).getD lane.1 []
        = (rowsL.getD lane.1 (List.replicate nin 0, List.replicate npub 0)).2 := by
      intro lane
      rw [getD_map_lt _ _ lane.1 (by simpa using lane.2) [] 0]
      congr 2
      rw [List.getD_eq_getElem _ _ (by simpa using lane.2), List.getElem_range]
    have hpubslen :
        (vec2dToVecSimd (List.map
          (fun i => (rowsL.getD i (List.replicate nin 0, List.replicate npub 0)).2)
          (List.range 8))).length = npub := by
      rw [vec2dToVecSimd_length, hpubD ⟨0, by omega⟩]
      exact hrow0p 0
    have hprivlen :
        (vec2dToVecSimd (List.map
          (fun i => (rowsL.getD i (List.replicate nin 0, List.replicate npub 0)).1)
          (List.range 8))).length = nin := by
      rw [vec2dToVecSimd_length, hprivD ⟨0, by omega⟩]
      exact hrow0 0
    have hpubval : ∀ (d : M31Vec) (idx : ℕ), idx < npub → ∀ lane : Fin 8,
        (vec2dToVecSimd (List.map
          (fun i => (rowsL.getD i (List.replicate nin 0, List.replicate npub 0)).2)
          (List.range 8))).getD idx d lane
        = if lane.1 < min nw 8 then witPub nin npub rowsL lane.1 idx else 0 := by
      intro d idx hidx lane
      rw [vec2dToVecSimd_getD _ idx (by rw [hpubD ⟨0, by omega⟩, hrow0p 0]; exact hidx) d lane,
        hpubD lane]
      by_cases hl : lane.1 < min nw 8
      · rw [if_pos hl]
        rfl
      · rw [if_neg hl, List.getD_eq_default rowsL _ (by omega)]
        show (List.replicate npub (0 : ℕ)).getD idx 0 = 0
        rw [List.getD_eq_getElem?_getD, List.getElem?_replicate]
        split <;> rfl
    refine ⟨nw, nin, npub, r1, r2, r3, fm, body, rowsL,
      hh1, hh2, hh3, hhm, hrows, hrl, hrd, ?_, ?_, ?_, ?_, ?_, ?_⟩
    · intro i hi j hj
      exact (hrfacts i hi).2.2.1 j hj
    · intro i hi j hj
      exact (hrfacts i hi).2.2.2 j hj
    · show (vec2dToVecSimd _).length = nin
      exact hprivlen
    · intro j hj lane
      show (vec2dToVecSimd _).getD j (packFull 0) lane = _
      rw [vec2dToVecSimd_getD _ j (by rw [hprivD ⟨0, by omega⟩, hrow0 0]; exact hj)
        (packFull 0) lane, hprivD lane]
      by_cases hl : lane.1 < min nw 8
      · rw [if_pos hl]
        rfl
      · rw [if_neg hl, List.getD_eq_default rowsL _ (by omega)]
        show (List.replicate nin (0 : ℕ)).getD j 0 = 0
        rw [List.getD_eq_getElem?_getD, List.getElem?_replicate]
        split <;> rfl
    · show tl.length + 1 = c.layers.length
      rw [← hfl, hcl]
      rfl
    · intro li
      have hlg : ∀ li : ℕ,
          (((⟨{ inputVarNum := l0.inputVarNum,
                 outputVarNum := l0.outputVarNum,
                 inputVals := vec2dToVecSimd (List.map
                   (fun i => (rowsL.getD i (List.replicate nin 0, List.replicate npub 0)).1)
                   (List.range 8)),
                 outputVals := l0.outputVals,
                 mul := l0.mul,
                 add := l0.add,
                 const := l0.const,
                 uni := l0.uni } :: tl⟩ : Circuit M31Vec)).layers.getD li
            emptyLayer).mul = (c1.layers.getD li emptyLayer).mul ∧
          (((⟨{ inputVarNum := l0.inputVarNum,
                 outputVarNum := l0.outputVarNum,
                 inputVals := vec2dToVecSimd (List.map
                   (fun i => (rowsL.getD i (List.replicate nin 0, List.replicate npub 0)).1)
                   (List.range 8)),
                 outputVals := l0.outputVals,
                 mul := l0.mul,
                 add := l0.add,
                 const := l0.const,
                 uni := l0.uni } :: tl⟩ : Circuit M31Vec)).layers.getD li
            emptyLayer).add = (c1.layers.getD li emptyLayer).add ∧
          (((⟨{ inputVarNum := l0.inputVarNum,
                 outputVarNum := l0.outputVarNum,
                 inputVals := vec2dToVecSimd (List.map
                   (fun i => (rowsL.getD i (List.replicate nin 0, List.replicate npub 0)).1)
                   (List.range 8)),
                 outputVals := l0.outputVals,
                 mul := l0.mul,
                 add := l0.add,
                 const := l0.const,
                 uni := l0.uni } :: tl⟩ : Circuit M31Vec)).layers.getD li
            emptyLayer).const = (c1.layers.getD li emptyLayer).const ∧
          (((⟨{ inputVarNum := l0.inputVarNum,
                 outputVarNum := l0.outputVarNum,
                 inputVals := vec2dToVecSimd (List.map
                   (fun i => (rowsL.getD i (List.replicate nin 0, List.replicate npub 0)).1)
                   (List.range 8)),
                 outputVals := l0.outputVals,
                 mul := l0.mul,
                 add := l0.add,
                 const := l0.const,
                 uni := l0.uni } :: tl⟩ : Circuit M31Vec)).layers.getD li
            emptyLayer).uni = (c1.layers.getD li emptyLayer).uni := by
        intro li
        rw [hcl]
        cases li with
        | zero => exact ⟨rfl, rfl, rfl, rfl⟩
        | succ n => exact ⟨rfl, rfl, rfl, rfl⟩
      obtain ⟨hFm, hFa, hFc, hFu⟩ := hfall li
      obtain ⟨hE1, hE2, hE3, hE4⟩ := hlg li
      rw [hE1, hE2, hE3, hE4]
      refine ⟨List.Forall₂.imp ?_ hFm, List.Forall₂.imp ?_ hFa,
        List.Forall₂.imp ?_ hFc, List.Forall₂.imp ?_ hFu⟩
      · intro g g2 hraw
        obtain ⟨cf, hcf, heq⟩ := Option.map_eq_some'.mp hraw
        obtain ⟨hPI, hCR⟩ := fillPubCoef_inv _ _ _ _ hcf
        subst heq
        refine ⟨rfl, rfl, rfl, rfl, rfl, ?_, ?_⟩
        · intro idx hct
          obtain ⟨hlt, hcfeq⟩ := hPI idx hct
          rw [hpubslen] at hlt
          refine ⟨hlt, fun lane => ?_⟩
          show cf lane = _
          rw [hcfeq]
          exact hpubval g.coef idx hlt lane
        · intro hct
          exact hCR hct
      · intro g g2 hraw
        obtain ⟨cf, hcf, heq⟩ := Option.map_eq_some'.mp hraw
        obtain ⟨hPI, hCR⟩ := fillPubCoef_inv _ _ _ _ hcf
        subst heq
        refine ⟨rfl, rfl, rfl, rfl, ?_, ?_⟩
        · intro idx hct
          obtain ⟨hlt, hcfeq⟩ := hPI idx hct
          rw [hpubslen] at hlt
          refine ⟨hlt, fun lane => ?_⟩
          show cf lane = _
          rw [hcfeq]
          exact hpubval g.coef idx hlt lane
        · intro hct
          exact hCR hct
      · intro g g2 hraw
        obtain ⟨cf, hcf, heq⟩ := Option.map_eq_some'.mp hraw
        obtain ⟨hPI, hCR⟩ := fillPubCoef_inv _ _ _ _ hcf
        subst heq
        refine ⟨rfl, rfl, rfl, ?_, ?_⟩
        · intro idx hct
          obtain ⟨hlt, hcfeq⟩ := hPI idx hct
          rw [hpubslen] at hlt
          refine ⟨hlt, fun lane => ?_⟩
          show cf lane = _
          rw [hcfeq]
          exact hpubval g.coef idx hlt lane
        · intro hct
          exact hCR hct
      · intro g g2 hraw
        obtain ⟨cf, hcf, heq⟩ := Option.map_eq_some'.mp hraw
        obtain ⟨hPI, hCR⟩ := fillPubCoef_inv _ _ _ _ hcf
        subst heq
        refine ⟨rfl, rfl, rfl, rfl, ?_, ?_⟩
        · intro idx hct
          obtain ⟨hlt, hcfeq⟩ := hPI idx hct
          rw [hpubslen] at hlt
          refine ⟨hlt, fun lane => ?_⟩
          show cf lane = _
          rw [hcfeq]
          exact hpubval g.coef idx hlt lane
        · intro hct
          exact hCR hct


/-- Witness for C8: loading one witness with one private input of value 5
into a one-layer circuit. -/
theorem load_witness_bytes_spec_witness :
    ∃ (nw nin npub : ℕ) (r1 r2 r3 fm body : List ℕ) (rows : List (List ℕ × List ℕ)),
      readU64 bytesW = some (nw, r1) ∧
      readU64 r1 = some (nin, r2) ∧
      readU64 r2 = some (npub, r3) ∧
      readBytes 32 r3 = some (fm, body) ∧
      readWitnessRows (min nw 8) nin npub body = some (rows, []) ∧
      rows.length = min nw 8 ∧
      ([] : List ℕ) = body.drop (32 * ((nin + npub) * min nw 8)) ∧
      (∀ i, i < min nw 8 → ∀ j, j < nin →
        ∃ rr, m31ReadEcc (body.drop (32 * ((nin + npub) * i + j)))
          = some (witPriv nin npub rows i j, rr)) ∧
      (∀ i, i < min nw 8 → ∀ j, j < npub →
        ∃ rr, m31ReadEcc (body.drop (32 * ((nin + npub) * i + nin + j)))
          = some (witPub nin npub rows i j, rr)) ∧
      (cW2.layers.getD 0 emptyLayer).inputVals.length = nin ∧
      (∀ j, j < nin → ∀ lane : Fin 8,
        (cW2.layers.getD 0 emptyLayer).inputVals.getD j (packFull 0) lane
          = if lane.1 < min nw 8 then witPriv nin npub rows lane.1 j else 0) ∧
      cW2.layers.length = cW.layers.length ∧
      (∀ li : ℕ,
        List.Forall₂ (fun g g2 : GateMul M31Vec =>
            g2.i0 = g.i0 ∧ g2.i1 = g.i1 ∧ g2.o = g.o ∧ g2.coefType = g.coefType ∧
            g2.gateType = g.gateType ∧
            (∀ idx, g.coefType = CoefTy.publicInput idx → idx < npub ∧
              ∀ lane : Fin 8, g2.coef lane =
                if lane.1 < min nw 8 then witPub nin npub rows lane.1 idx else 0) ∧
            (g.coefType = CoefTy.constant ∨ g.coefType = CoefTy.random →
              g2.coef = g.coef))
          (cW.layers.getD li emptyLayer).mul (cW2.layers.getD li emptyLayer).mul ∧
        List.Forall₂ (fun g g2 : GateAdd M31Vec =>
            g2.i0 = g.i0 ∧ g2.o = g.o ∧ g2.coefType = g.coefType ∧
            g2.gateType = g.gateType ∧
            (∀ idx, g.coefType = CoefTy.publicInput idx → idx < npub ∧
              ∀ lane : Fin 8, g2.coef lane =
                if lane.1 < min nw 8 then witPub nin npub rows lane.1 idx else 0) ∧
            (g.coefType = CoefTy.constant ∨ g.coefType = CoefTy.random →
              g2.coef = g.coef))
          (cW.layers.getD li emptyLayer).add (cW2.layers.getD li emptyLayer).add ∧
        List.Forall₂ (fun g g2 : GateCst M31Vec =>
            g2.o = g.o ∧ g2.coefType = g.coefType ∧ g2.gateType = g.gateType ∧
            (∀ idx, g.coefType = CoefTy.publicInput idx → idx < npub ∧
              ∀ lane : Fin 8, g2.coef lane =
                if lane.1 < min nw 8 then witPub nin npub rows lane.1 idx else 0) ∧
            (g.coefType = CoefTy.constant ∨ g.coefType = CoefTy.random →
              g2.coef = g.coef))
          (cW.layers.getD li emptyLayer).const (cW2.layers.getD li emptyLayer).const ∧
        List.Forall₂ (fun g g2 : GateUni M31Vec =>
            g2.i0 = g.i0 ∧ g2.o = g.o ∧ g2.coefType = g.coefType ∧
            g2.gateType = g.gateType ∧
            (∀ idx, g.coefType = CoefTy.publicInput idx → idx < npub ∧
              ∀ lane : Fin 8, g2.coef lane =
                if lane.1 < min nw 8 then witPub nin npub rows lane.1 idx else 0) ∧
            (g.coefType = CoefTy.constant ∨ g.coefType = CoefTy.random →
              g2.coef = g.coef))
          (cW.layers.getD li emptyLayer).uni (cW2.layers.getD li emptyLayer).uni) :=
  load_witness_bytes_spec cW cW2 bytesW [] rfl

/-- The accumulating fold of `scan_leaf_segments` appends, per key, the
per-child contributions in order. -/
theorem foldl_append_fun {α β γ : Type} (l : List α) (base : β → List γ)
    (G : α → β → List γ) :
    l.foldl (fun acc x => fun id => acc id ++ G x id) base
    = fun id => base id ++ l.flatMap (fun x => G x id) := by
  induction l generalizing base with
  | nil => funext id; simp
  | cons c cs ih =>
    rw [List.foldl_cons, ih]
    funext id
    simp [List.append_assoc]

/-- One-step unfolding of `scan_leaf_segments`: the root entry followed by
the offset-composed leaves of each child. -/
theorem scan_succ_eq {V : Type} (rc : RecursiveCircuit V) (fuel : ℕ) (seg : Segment V)
    (curId : ℕ) :
    scan_leaf_segments rc (fuel + 1) seg curId =
      fun id => (if seg.containGates = true ∧ id = curId then [⟨0, 0⟩] else []) ++
        seg.childSegs.flatMap (fun child =>
          child.2.flatMap (fun ca =>
            (scan_leaf_segments rc fuel (rc.segments.getD child.1 emptySeg) child.1 id).map
              (fun la => ⟨ca.iOffset + la.iOffset, ca.oOffset + la.oOffset⟩))) :=
  foldl_append_fun seg.childSegs _ _

/-- Leaves of composition paths are genuine segment indices: only an
in-range segment can contain gates. -/
theorem pathComp_leaf_lt {V : Type} (rc : RecursiveCircuit V) {cur leafId : ℕ}
    {a : Allocation} (h : PathComp rc cur leafId a) : leafId < rc.segments.length := by
  induction h with
  | leaf id hcg =>
    by_contra hge
    rw [List.getD_eq_default _ _ (by omega)] at hcg
    simp [Segment.containGates, emptySeg] at hcg
  | child cur cid leafId callocs ca la hc hca hp ih => exact ih

/-- With fuel exceeding the rank of the current segment (ranks decrease
along child edges), the scan finds exactly the path-composed allocations. -/
theorem scan_mem_iff {V : Type} (rc : RecursiveCircuit V) (rank : ℕ → ℕ)
    (hchild : ∀ cur cid cal, (cid, cal) ∈ (rc.segments.getD cur emptySeg).childSegs →
      rank cid < rank cur) :
    ∀ (n cur : ℕ), rank cur = n → ∀ fuel, n < fuel → ∀ leafId a,
      (a ∈ scan_leaf_segments rc fuel (rc.segments.getD cur emptySeg) cur leafId ↔
        PathComp rc cur leafId a) := by
  intro n
  induction n using Nat.strong_induction_on with
  | _ n ih =>
    intro cur hrank fuel hfuel leafId a
    obtain ⟨f, rfl⟩ : ∃ f, fuel = f + 1 := ⟨fuel - 1, by omega⟩
    rw [scan_succ_eq]
    constructor
    · intro hmem
      rcases List.mem_append.mp hmem with hbase | hrec
      · by_cases hcg : (rc.segments.getD cur emptySeg).containGates = true ∧ leafId = cur
        · rw [if_pos hcg] at hbase
          simp only [List.mem_singleton] at hbase
          subst hbase
          obtain ⟨h1, rfl⟩ := hcg
          exact PathComp.leaf _ h1
        · rw [if_neg hcg] at hbase
          exact absurd hbase (by simp)
      · rcases List.mem_flatMap.mp hrec with ⟨child, hchildmem, h2⟩
        rcases List.mem_flatMap.mp h2 with ⟨ca, hca, h3⟩
        rcases List.mem_map.mp h3 with ⟨la, hla, rfl⟩
        have hlt : rank child.1 < rank cur := hchild cur child.1 child.2 (by simpa using hchildmem)
        have hIH := ih (rank child.1) (by omega) child.1 rfl f (by omega) leafId la
        exact PathComp.child cur child.1 leafId child.2 ca la (by simpa using hchildmem)
          hca (hIH.mp hla)
    · intro hp
      cases hp with
      | leaf id h =>
        apply List.mem_append.mpr
        left
        rw [if_pos ⟨h, rfl⟩]
        simp
      | child _ cid _ callocs ca la hc hca hsub =>
        apply List.mem_append.mpr
        right
        apply List.mem_flatMap.mpr
        refine ⟨(cid, callocs), hc, ?_⟩
        apply List.mem_flatMap.mpr
        refine ⟨ca, hca, ?_⟩
        apply List.mem_map.mpr
        have hlt : rank cid < rank cur := hchild cur cid callocs hc
        have hIH := ih (rank cid) (by omega) cid rfl f (by omega) leafId la
        exact ⟨la, hIH.mpr hsub, rfl⟩

/-- Cloning a gate list once per allocation multiplies its length. -/
theorem flatMap_map_length {γ : Type} (allocs : List Allocation) (gates : List γ)
    (shift : Allocation → γ → γ) :
    (allocs.flatMap (fun a => gates.map (shift a))).length = allocs.length * gates.length := by
  induction allocs with
  | nil => simp
  | cons a t ih =>
    simp only [List.flatMap_cons, List.length_append, List.length_map, ih, List.length_cons]
    ring

/-- The length of one flattened gate list is the sum over leaf ids of
(allocation count) times (leaf gate count). -/
theorem flat_kind_length {γ : Type} (n : ℕ) (leaves : ℕ → List Allocation)
    (gatesOf : ℕ → List γ) (shift : Allocation → γ → γ) :
    ((List.range n).flatMap (fun leafId =>
      (leaves leafId).flatMap (fun a => (gatesOf leafId).map (shift a)))).length
    = ((List.range n).map (fun leafId =>
        (leaves leafId).length * (gatesOf leafId).length)).sum := by
  rw [List.length_flatMap]
  congr 1
  apply List.map_congr_left
  intro leafId _
  simp only [Function.comp_apply]
  exact flatMap_map_length (leaves leafId) (gatesOf leafId) shift

/-- Membership in a flattened gate list: exactly the shifted clones of leaf
gates along composition paths. -/
theorem flat_kind_mem {V γ : Type} (rc : RecursiveCircuit V) (leaves : ℕ → List Allocation)
    (gatesOf : ℕ → List γ) (shift : Allocation → γ → γ) (root : ℕ)
    (hiff : ∀ leafId a, a ∈ leaves leafId ↔ PathComp rc root leafId a) (g : γ) :
    (g ∈ (List.range rc.segments.length).flatMap (fun leafId =>
        (leaves leafId).flatMap (fun a => (gatesOf leafId).map (shift a))) ↔
      ∃ leafId a g0, PathComp rc root leafId a ∧ g0 ∈ gatesOf leafId ∧ g = shift a g0) := by
  constructor
  · intro h
    rcases List.mem_flatMap.mp h with ⟨leafId, hrange, h2⟩
    rcases List.mem_flatMap.mp h2 with ⟨a, ha, h3⟩
    rcases List.mem_map.mp h3 with ⟨g0, hg0, rfl⟩
    exact ⟨leafId, a, g0, (hiff _ _).mp ha, hg0, rfl⟩
  · rintro ⟨leafId, a, g0, hp, hg0, rfl⟩
    exact List.mem_flatMap.mpr ⟨leafId, List.mem_range.mpr (pathComp_leaf_lt rc hp),
      List.mem_flatMap.mpr ⟨a, (hiff _ _).mpr hp, List.mem_map.mpr ⟨g0, hg0, rfl⟩⟩⟩

/-- C6: for an acyclic segment DAG (witnessed by a rank function bounded by
the segment count and strictly decreasing along child references),
`scan_leaf_segments` finds, for every root and leaf, exactly the allocations
that arise as coordinate-wise sums along DAG paths from the root to a
gate-containing leaf; and every top-level layer of `flatten` has gate lists
consisting exactly of the leaf gates shifted by such composed offsets
(membership characterization), with the number of gates of each kind equal
to the sum over leaf ids of the number of composed allocations times the
leaf's gate count. -/
theorem flatten_leaf_composition {V : Type} (rc : RecursiveCircuit V) (rank : ℕ → ℕ)
    (hrk : ∀ id, rank id < rc.segments.length)
    (hchild : ∀ cur cid cal, (cid, cal) ∈ (rc.segments.getD cur emptySeg).childSegs →
      rank cid < rank cur) :
    (∀ rootId leafId a,
      (a ∈ scan_leaf_segments rc rc.segments.length (rc.segments.getD rootId emptySeg)
          rootId leafId ↔ PathComp rc rootId leafId a)) ∧
    (∀ li, li < rc.layers.length →
      (∀ g, g ∈ ((rc.flatten).layers.getD li emptyLayer).mul ↔
        ∃ leafId a g0, PathComp rc (rc.layers.getD li 0) leafId a ∧
          g0 ∈ (rc.segments.getD leafId emptySeg).gateMuls ∧ g = shiftMul a g0) ∧
      (∀ g, g ∈ ((rc.flatten).layers.getD li emptyLayer).add ↔
        ∃ leafId a g0, PathComp rc (rc.layers.getD li 0) leafId a ∧
          g0 ∈ (rc.segments.getD leafId emptySeg).gateAdds ∧ g = shiftAdd a g0) ∧
      (∀ g, g ∈ ((rc.flatten).layers.getD li emptyLayer).const ↔
        ∃ leafId a g0, PathComp rc (rc.layers.getD li 0) leafId a ∧
          g0 ∈ (rc.segments.getD leafId emptySeg).gateCsts ∧ g = shiftCst a g0) ∧
      (∀ g, g ∈ ((rc.flatten).layers.getD li emptyLayer).uni ↔
        ∃ leafId a g0, PathComp rc (rc.layers.getD li 0) leafId a ∧
          g0 ∈ (rc.segments.getD leafId emptySeg).gateUnis ∧ g = shiftUni a g0) ∧
      ((rc.flatten).layers.getD li emptyLayer).mul.length =
        ((List.range rc.segments.length).map (fun leafId =>
          (scan_leaf_segments rc rc.segments.length
            (rc.segments.getD (rc.layers.getD li 0) emptySeg) (rc.layers.getD li 0)
            leafId).length *
          (rc.segments.getD leafId emptySeg).gateMuls.length)).sum ∧
      ((rc.flatten).layers.getD li emptyLayer).add.length =
        ((List.range rc.segments.length).map (fun leafId =>
          (scan_leaf_segments rc rc.segments.length
            (rc.segments.getD (rc.layers.getD li 0) emptySeg) (rc.layers.getD li 0)
            leafId).length *
          (rc.segments.getD leafId emptySeg).gateAdds.length)).sum ∧
      ((rc.flatten).layers.getD li emptyLayer).const.length =
        ((List.range rc.segments.length).map (fun leafId =>
          (scan_leaf_segments rc rc.segments.length
            (rc.segments.getD (rc.layers.getD li 0) emptySeg) (rc.layers.getD li 0)
            leafId).length *
          (rc.segments.getD leafId emptySeg).gateCsts.length)).sum ∧
      ((rc.flatten).layers.getD li emptyLayer).uni.length =
        ((List.range rc.segments.length).map (fun leafId =>
          (scan_leaf_segments rc rc.segments.length
            (rc.segments.getD (rc.layers.getD li 0) emptySeg) (rc.layers.getD li 0)
            leafId).length *
          (rc.segments.getD leafId emptySeg).gateUnis.length)).sum) := by
  have hscan : ∀ rootId leafId a,
      (a ∈ scan_leaf_segments rc rc.segments.length (rc.segments.getD rootId emptySeg)
        rootId leafId ↔ PathComp rc rootId leafId a) := fun rootId =>
    scan_mem_iff rc rank hchild (rank rootId) rootId rfl rc.segments.length (hrk rootId)
  refine ⟨hscan, fun li hli => ?_⟩
  have hlayer : (rc.flatten).layers.getD li emptyLayer = flattenLayer rc (rc.layers.getD li 0) :=
    getD_map_lt (flattenLayer rc) rc.layers li hli emptyLayer 0
  rw [hlayer]
  refine ⟨?_, ?_, ?_, ?_, ?_, ?_, ?_, ?_⟩
  · intro g
    exact flat_kind_mem rc _ (fun id => (rc.segments.getD id emptySeg).gateMuls) shiftMul
      (rc.layers.getD li 0) (hscan (rc.layers.getD li 0)) g
  · intro g
    exact flat_kind_mem rc _ (fun id => (rc.segments.getD id emptySeg).gateAdds) shiftAdd
      (rc.layers.getD li 0) (hscan (rc.layers.getD li 0)) g
  · intro g
    exact flat_kind_mem rc _ (fun id => (rc.segments.getD id emptySeg).gateCsts) shiftCst
      (rc.layers.getD li 0) (hscan (rc.layers.getD li 0)) g
  · intro g
    exact flat_kind_mem rc _ (fun id => (rc.segments.getD id emptySeg).gateUnis) shiftUni
      (rc.layers.getD li 0) (hscan (rc.layers.getD li 0)) g
  · exact flat_kind_length rc.segments.length _
      (fun id => (rc.segments.getD id emptySeg).gateMuls) shiftMul
  · exact flat_kind_length rc.segments.length _
      (fun id => (rc.segments.getD id emptySeg).gateAdds) shiftAdd
  · exact flat_kind_length rc.segments.length _
      (fun id => (rc.segments.getD id emptySeg).gateCsts) shiftCst
  · exact flat_kind_length rc.segments.length _
      (fun id => (rc.segments.getD id emptySeg).gateUnis) shiftUni

/-- Witness for C6: in `rcW` the composed allocation (2,3) reaches leaf 0,
and the flat layer has 2 add gates (two instantiations of one gate). -/
theorem flatten_leaf_composition_witness :
    PathComp rcW 1 0 ⟨2, 3⟩ ∧
    ((rcW.flatten).layers.getD 0 emptyLayer).add.length = 2 := by
  obtain ⟨hA, hB⟩ := flatten_leaf_composition rcW rankW
    (by
      intro id
      show rankW id < 2
      show (if id = 1 then 1 else 0) < 2
      split <;> omega)
    (by
      intro cur cid cal h
      match cur with
      | 0 => exact absurd h (List.not_mem_nil _)
      | 1 =>
        have h2 := List.mem_singleton.mp h
        rw [Prod.mk.injEq] at h2
        rw [h2.1]
        decide
      | n + 2 => exact absurd h (List.not_mem_nil _))
  refine ⟨(hA 1 0 ⟨2, 3⟩).mp (by decide), ?_⟩
  rw [(hB 0 (by decide)).2.2.2.2.2.1]
  decide
